import Mathlib

/-!
Verification of the move-resolution and edit-emission core of a backtracking
register allocator (file `src/ion/moves.rs` of the repository).

The data model (program points, allocations, priorities, edits) lives in the
crate root and in `ion/mod.rs`, which are not part of the sources provided;
those definitions are modelled from the specification.  Everything in
`ion/moves.rs` itself (the abutment scan, half-move matching, edge-insertion
decision, program-move reification, group-wise resolution and edit emission)
is translated directly from that source file.
-/

namespace RegAlloc

/-- Modelled from the spec: the fixed {Integer, Float} register-class split
(`RegClass` in the crate root, not under the provided sources). -/
inductive RegClass where
  | int
  | float
deriving DecidableEq, Repr

/-- Modelled from the spec: a physical register with its class (`PReg` in the
crate root, not under the provided sources). -/
structure PReg where
  num : Nat
  cls : RegClass
deriving DecidableEq, Repr

/-- Modelled from the spec: a spill slot with its class (`SpillSlot` in the
crate root, not under the provided sources). -/
structure SpillSlot where
  num : Nat
  cls : RegClass
deriving DecidableEq, Repr

/-- Modelled from the spec: `Allocation` is a tagged union `None` (sentinel),
`Reg(preg)` or `Stack(slot)`; every non-`None` allocation has a register
class.  (Defined in the crate root, not under the provided sources.) -/
inductive Allocation where
  | none
  | reg (r : PReg)
  | stack (s : SpillSlot)
deriving DecidableEq, Repr

namespace Allocation

def is_reg : Allocation → Bool
  | .reg _ => true
  | _ => false

def is_stack : Allocation → Bool
  | .stack _ => true
  | _ => false

def is_none : Allocation → Bool
  | .none => true
  | _ => false

def as_reg : Allocation → Option PReg
  | .reg r => some r
  | _ => Option.none

/-- The register class of a non-`None` allocation. -/
def cls : Allocation → Option RegClass
  | .none => Option.none
  | .reg r => some r.cls
  | .stack s => some s.cls

end Allocation

/-- Modelled from the spec: an instruction position, `Before` or `After`
(`InstPosition` in the crate root, not under the provided sources). -/
inductive InstPosition where
  | before
  | after
deriving DecidableEq, Repr

/-- Modelled from the spec: a program point `(inst, pos)` totally ordered as
`2·inst + pos` (`ProgPoint` in the crate root, not under the provided
sources). -/
structure ProgPoint where
  inst : Nat
  pos : InstPosition
deriving DecidableEq, Repr

namespace ProgPoint

def to_index (p : ProgPoint) : Nat :=
  2 * p.inst + (match p.pos with | .before => 0 | .after => 1)

def before (i : Nat) : ProgPoint := ⟨i, .before⟩

def after (i : Nat) : ProgPoint := ⟨i, .after⟩

end ProgPoint

/-- Modelled from the spec: the ordered priority enum for inserted moves,
lowest first: `InEdgeMoves < BlockParam < Regular < PostRegular <
MultiFixedReg < ReusedInput < OutEdgeMoves` (defined in `ion/mod.rs`, not
under the provided sources; the order is the spec's stated design choice). -/
inductive InsertMovePrio where
  | inEdgeMoves
  | blockParam
  | regular
  | postRegular
  | multiFixedReg
  | reusedInput
  | outEdgeMoves
deriving DecidableEq, Repr

/-- Numeric rank realizing the priority order. -/
def InsertMovePrio.rank : InsertMovePrio → Nat
  | .inEdgeMoves => 0
  | .blockParam => 1
  | .regular => 2
  | .postRegular => 3
  | .multiFixedReg => 4
  | .reusedInput => 5
  | .outEdgeMoves => 6

/-- Modelled from the spec: an output edit, either a primitive move or a
checker-facing `DefAlloc` annotation (`Edit` in the crate root, not under the
provided sources). -/
inductive Edit where
  | move (from_ : Allocation) (to_ : Allocation) (to_vreg : Option Nat)
  | defAlloc (alloc : Allocation) (vreg : Nat)
deriving DecidableEq, Repr

/-- An output record `(pos.to_index(), prio, edit)`, exactly the triple pushed
by `add_edit`. -/
abbrev EditRec := Nat × InsertMovePrio × Edit

/-- Modelled from the spec: an enqueued move
`(pos, prio, from_alloc, to_alloc, to_vreg?)` (`InsertedMove` in
`ion/mod.rs`, not under the provided sources). -/
structure InsertedMove where
  pos : ProgPoint
  prio : InsertMovePrio
  from_alloc : Allocation
  to_alloc : Allocation
  to_vreg : Option Nat
deriving DecidableEq, Repr

/-- Errors: assertion failures, and the one fatal diagnostic (a critical
edge), which names the two offending blocks. -/
inductive RAErr where
  | assertFail
  | criticalEdge (from_block : Nat) (to_block : Nat)
deriving DecidableEq, Repr

/-- Modelled from the spec: operand kinds `Use`, `Def`, `Mod` (crate root, not
under the provided sources).  Only the kind is consulted by the resolution
core. -/
inductive OperandKind where
  | use
  | def_
  | mod
deriving DecidableEq, Repr

/-- The function/CFG context consumed by the move-resolution core: the
`Function` trait methods and `cfginfo` tables the source reads, plus the
finalized allocation array (`get_alloc`) and the per-class scratch registers.
Operands are represented by their kind together with the `operand_alloc`
accessor for the slot's finalized allocation. -/
structure Func where
  insn_block : Nat → Nat
  block_entry : Nat → ProgPoint
  entry_block : Nat
  block_insns_first : Nat → Nat
  block_insns_last : Nat → Nat
  block_succs : Nat → List Nat
  block_preds : Nat → List Nat
  block_params_len : Nat → Nat
  is_ret : Nat → Bool
  is_safepoint : Nat → Bool
  inst_operands : Nat → List OperandKind
  operand_alloc : Nat → Nat → Allocation
  inst_clobbers : Nat → List PReg
  scratch_by_class : RegClass → PReg
  vreg_regs : Nat → Nat

/-! ### A stable sorting model

`sort_by_key` in Rust is contractually a stable sort; we model it (and, where
the keys at stake are pairwise distinct, `sort_unstable_by_key` as well) by a
straightforward insertion sort that places each element before the first
strictly greater key, hence after all earlier elements with an equal key. -/

def insert_by_key {α β : Type} [LinearOrder β] (key : α → β) (x : α) :
    List α → List α
  | [] => [x]
  | y :: ys => if key y < key x then y :: insert_by_key key x ys else x :: y :: ys

def stable_sort_by_key {α β : Type} [LinearOrder β] (key : α → β) :
    List α → List α
  | [] => []
  | x :: xs => insert_by_key key x (stable_sort_by_key key xs)

/-! ### Half-move keys (`half_move_key` and the `HalfMove` accessors) -/

inductive HalfMoveKind where
  | source
  | dest
deriving DecidableEq, Repr

def HalfMoveKind.toNat : HalfMoveKind → Nat
  | .source => 0
  | .dest => 1

/-- `half_move_key`: the packed 64-bit sort key
`from_block (21 bits) | to_block (21 bits) | to_vreg (21 bits) | kind (1 bit)`,
with the three runtime 21-bit range checks (`assert!`s in the source). -/
def half_move_key (from_block to_block to_vreg : Nat) (kind : HalfMoveKind) :
    Except RAErr Nat :=
  if from_block < 1 <<< 21 ∧ to_block < 1 <<< 21 ∧ to_vreg < 1 <<< 21 then
    .ok ((from_block <<< 43) ||| (to_block <<< 22) ||| (to_vreg <<< 1) ||| kind.toNat)
  else .error .assertFail

/-- A half-move: the packed key plus the endpoint's allocation. -/
structure HalfMove where
  key : Nat
  alloc : Allocation
deriving DecidableEq, Repr

namespace HalfMove

def from_block (h : HalfMove) : Nat := (h.key >>> 43) &&& (1 <<< 21 - 1)

def to_block (h : HalfMove) : Nat := (h.key >>> 22) &&& (1 <<< 21 - 1)

def to_vreg (h : HalfMove) : Nat := (h.key >>> 1) &&& (1 <<< 21 - 1)

def kind (h : HalfMove) : HalfMoveKind :=
  if h.key &&& 1 = 1 then .dest else .source

end HalfMove

/-! ### `insert_move` and `add_edit` -/

/-- `insert_move`: asserts class equality for register-to-register moves, then
pushes the `InsertedMove` (returned here as the list of newly pushed moves). -/
def insert_move (moves : List InsertedMove) (pos : ProgPoint)
    (prio : InsertMovePrio) (from_alloc to_alloc : Allocation)
    (to_vreg : Option Nat) : Except RAErr (List InsertedMove) :=
  match from_alloc.as_reg, to_alloc.as_reg with
  | some f, some t =>
    if f.cls = t.cls then
      .ok (moves ++ [⟨pos, prio, from_alloc, to_alloc, to_vreg⟩])
    else .error .assertFail
  | _, _ => .ok (moves ++ [⟨pos, prio, from_alloc, to_alloc, to_vreg⟩])

/-- `add_edit`: drop a `Move` whose endpoints coincide when it carries no
`to_vreg`; assert class equality for register-to-register moves; otherwise
push `(pos.to_index(), prio, edit)`. -/
def add_edit (edits : List EditRec) (pos : ProgPoint) (prio : InsertMovePrio)
    (edit : Edit) : Except RAErr (List EditRec) :=
  match edit with
  | .move f t v =>
    if f = t ∧ v = Option.none then .ok edits
    else
      match f, t with
      | .reg fr, .reg tr =>
        if fr.cls = tr.cls then .ok (edits ++ [(pos.to_index, prio, edit)])
        else .error .assertFail
      | _, _ => .ok (edits ++ [(pos.to_index, prio, edit)])
  | .defAlloc _ _ => .ok (edits ++ [(pos.to_index, prio, edit)])

/-! ### Phase A: the intra-block abutment scan -/

def is_start_of_block (func : Func) (pos : ProgPoint) : Bool :=
  let block := func.insn_block pos.inst
  pos = func.block_entry block

/-- One live-range entry of a vreg as the Phase-A scan sees it: the final
range endpoints, the effective allocation that `get_alloc_for_range` yields
for it (through the bundle/spillset/spillslot chain), and the `StartsAtDef`
flag of the underlying range. -/
structure RangeEntry where
  from_ : ProgPoint
  to_ : ProgPoint
  alloc : Allocation
  startsAtDef : Bool
deriving DecidableEq, Repr

/-- The abutment check of `apply_allocations_and_insert_moves`: when the
previous range of the same (non-pinned) vreg ends exactly where the current
one begins, the point is not a block start, and the current range is not
flagged `StartsAtDef`, a `Regular`-priority move from the previous range's
allocation to the current one is enqueued unconditionally (the source asserts
that the point is a `Before` position). -/
def abutment_one (func : Func) (vreg : Nat) (prev : Option RangeEntry)
    (cur : RangeEntry) : Except RAErr (List InsertedMove) :=
  match prev with
  | Option.none => .ok []
  | some p =>
    if p.to_ = cur.from_ ∧ is_start_of_block func cur.from_ = false ∧
        cur.startsAtDef = false then
      if cur.from_.pos = InstPosition.before then
        insert_move [] cur.from_ .regular p.alloc cur.alloc
          (some (func.vreg_regs vreg))
      else .error .assertFail
    else .ok []

def abutment_moves_aux (func : Func) (vreg : Nat) (prev : Option RangeEntry) :
    List RangeEntry → Except RAErr (List InsertedMove)
  | [] => .ok []
  | cur :: rest =>
    abutment_one func vreg prev cur >>= fun here =>
    abutment_moves_aux func vreg (some cur) rest >>= fun tail =>
    .ok (here ++ tail)

/-- Phase-A abutment moves for one vreg (its ranges listed in increasing start
order, as the source sorts them): pinned vregs bypass the logic. -/
def abutment_moves (func : Func) (pinned : Option PReg) (vreg : Nat)
    (ranges : List RangeEntry) : Except RAErr (List InsertedMove) :=
  match pinned with
  | some _ => .ok []
  | Option.none => abutment_moves_aux func vreg Option.none ranges

/-! ### The redundant-move eliminator (modelled from the spec) -/

/-- Modelled from the spec: the redundant-move eliminator
(`RedundantMoveEliminator`, defined outside the provided sources) tracks, per
allocation, the vreg currently known to reside there. -/
structure RedundantMoveEliminator where
  contents : Allocation → Option Nat

/-- The action `process_move` requests. -/
structure RedundantMoveAction where
  elide : Bool
  def_alloc : Option (Allocation × Nat)

def RedundantMoveEliminator.empty : RedundantMoveEliminator :=
  ⟨fun _ => Option.none⟩

def RedundantMoveEliminator.clear (_ : RedundantMoveEliminator) :
    RedundantMoveEliminator := .empty

def RedundantMoveEliminator.clear_alloc (st : RedundantMoveEliminator)
    (a : Allocation) : RedundantMoveEliminator :=
  ⟨fun x => if x = a then Option.none else st.contents x⟩

/-- Modelled from the spec: `process_move(src, dst, to_vreg)` requests elision
when the known contents of `src` already match what the move would place in
`dst` (trivially so for a self-move); when it elides a move that carries a
`to_vreg`, it requests a `DefAlloc(dst, vreg)` annotation so the checker still
sees the binding.  The destination's tracked contents become `to_vreg` when
present, else a copy of the source's known contents. -/
def RedundantMoveEliminator.process_move (st : RedundantMoveEliminator)
    (src dst : Allocation) (to_vreg : Option Nat) :
    RedundantMoveAction × RedundantMoveEliminator :=
  let elide : Bool := src == dst ||
    (match st.contents src, st.contents dst with
     | some a, some b => a == b
     | _, _ => false)
  let def_alloc := if elide then to_vreg.map (fun v => (dst, v)) else Option.none
  let newContents := fun x =>
    if x = dst then
      match to_vreg with
      | some v => some v
      | Option.none => st.contents src
    else st.contents x
  (⟨elide, def_alloc⟩, ⟨newContents⟩)

/-- `redundant_move_process_side_effects`: crossing a block boundary or a
safepoint clears the tracker; otherwise every `Def`/`Mod` operand write and
every clobber over the half-open instruction range invalidates its
allocation. -/
def redundant_move_process_side_effects (func : Func)
    (st : RedundantMoveEliminator) (from_ to_ : ProgPoint) :
    RedundantMoveEliminator :=
  if func.insn_block from_.inst ≠ func.insn_block to_.inst then st.clear
  else if (List.range' from_.inst (to_.inst + 1 - from_.inst)).any
      func.is_safepoint then st.clear
  else
    let start_inst := match from_.pos with
      | .before => from_.inst
      | .after => from_.inst + 1
    let end_inst := match to_.pos with
      | .before => to_.inst
      | .after => to_.inst + 1
    (List.range' start_inst (end_inst - start_inst)).foldl (fun acc inst =>
      let acc := (func.inst_operands inst).enum.foldl (fun acc2 iop =>
        match iop.2 with
        | OperandKind.def_ => acc2.clear_alloc (func.operand_alloc inst iop.1)
        | OperandKind.mod => acc2.clear_alloc (func.operand_alloc inst iop.1)
        | OperandKind.use => acc2) acc
      (func.inst_clobbers inst).foldl
        (fun acc2 r => acc2.clear_alloc (Allocation.reg r)) acc) st

/-! ### The parallel-move resolver (modelled from the spec) -/

/-- A parallel assignment `(from, to, to_vreg)` handed to the resolver. -/
abbrev PMove := Allocation × Allocation × Option Nat

/-- Find a pending move whose destination no other pending move reads. -/
def find_ready_move (seen : List PMove) : List PMove → Option (PMove × List PMove)
  | [] => Option.none
  | m :: rest =>
    if (seen ++ rest).all (fun x => x.1 != m.2.1) then some (m, seen ++ rest)
    else find_ready_move (seen ++ [m]) rest

/-- Modelled from the spec: the parallel-move resolver collaborator
(`crate::moves::ParallelMoves`, not under the provided sources).  Contract:
produce an executable sequence realizing the parallel assignment, using the
scratch location at most to break cycles ("any standard cycle-breaking
topological scheduler suffices").  This scheduler emits ready moves first and,
when only cycles remain, saves the head move's source through the scratch. -/
def parallel_moves_go (scratch : Allocation) : Nat → List PMove → List PMove
  | 0, pending => pending
  | _ + 1, [] => []
  | fuel + 1, first :: rest =>
    match find_ready_move [] (first :: rest) with
    | some (m, others) => m :: parallel_moves_go scratch fuel others
    | Option.none =>
      (first.1, scratch, Option.none) ::
        parallel_moves_go scratch fuel ((scratch, first.2.1, first.2.2) :: rest)

def parallel_moves_resolve (scratch : Allocation) (pending : List PMove) :
    List PMove :=
  parallel_moves_go scratch (2 * pending.length + 1) pending

/-- Modelled from the spec: `allocate_spillslot` (allocator core, outside the
provided sources) hands out a fresh spill slot of the requested class. -/
def allocate_spillslot (next : Nat) (cls : RegClass) : Allocation × Nat :=
  (Allocation.stack ⟨next, cls⟩, next + 1)

/-! ### Phase B.3: group-wise resolution and edit emission -/

/-- The mutable state of `resolve_inserted_moves`. -/
structure RState where
  redundant_moves : RedundantMoveEliminator
  extra_spillslot : RegClass → Option Allocation
  next_spillslot : Nat
  edits : List EditRec
  last_pos : ProgPoint

def init_rstate : RState :=
  ⟨.empty, fun _ => Option.none, 0, [], ProgPoint.before 0⟩

/-- The per-class emission state inside one group. -/
structure EmitState where
  redundant_moves : RedundantMoveEliminator
  scratch_used_yet : Bool
  edits : List EditRec

/-- Emit the `DefAlloc` annotation an eliminator action requested, if any. -/
def emit_def_alloc (pos : ProgPoint) (prio : InsertMovePrio)
    (edits : List EditRec) (da : Option (Allocation × Nat)) :
    Except RAErr (List EditRec) :=
  match da with
  | some av => add_edit edits pos prio (.defAlloc av.1 av.2)
  | Option.none => pure edits

/-- Emission of one resolved move: consult the eliminator; mark the scratch
used when it is the destination; lower a stack-to-stack move through the
scratch (two edits), or, when the scratch already holds live data, around the
extra spill slot (four edits); emit a requested `DefAlloc` in any case. -/
def emit_resolved_move (scratch : PReg) (extra_slot : Option Allocation)
    (pos : ProgPoint) (prio : InsertMovePrio) (st : EmitState) (mv : PMove) :
    Except RAErr EmitState :=
  if (st.redundant_moves.process_move mv.1 mv.2.1 mv.2.2).1.elide then
    emit_def_alloc pos prio st.edits
        (st.redundant_moves.process_move mv.1 mv.2.1 mv.2.2).1.def_alloc >>=
      fun edits =>
        pure ⟨(st.redundant_moves.process_move mv.1 mv.2.1 mv.2.2).2,
          st.scratch_used_yet, edits⟩
  else
    (if mv.1.is_stack ∧ mv.2.1.is_stack then
      if (st.scratch_used_yet || (mv.2.1 == Allocation.reg scratch)) = false then
        add_edit st.edits pos prio
            (.move mv.1 (Allocation.reg scratch) mv.2.2) >>= fun e1 =>
        add_edit e1 pos prio (.move (Allocation.reg scratch) mv.2.1 mv.2.2)
      else
        match extra_slot with
        | Option.none => .error .assertFail
        | some extra =>
          add_edit st.edits pos prio
              (.move (Allocation.reg scratch) extra Option.none) >>= fun e1 =>
          add_edit e1 pos prio (.move mv.1 (Allocation.reg scratch) mv.2.2)
            >>= fun e2 =>
          add_edit e2 pos prio (.move (Allocation.reg scratch) mv.2.1 mv.2.2)
            >>= fun e3 =>
          add_edit e3 pos prio
            (.move extra (Allocation.reg scratch) Option.none)
    else
      add_edit st.edits pos prio (.move mv.1 mv.2.1 mv.2.2)) >>= fun edits =>
    emit_def_alloc pos prio edits
        (st.redundant_moves.process_move mv.1 mv.2.1 mv.2.2).1.def_alloc >>=
      fun edits2 =>
        pure ⟨(st.redundant_moves.process_move mv.1 mv.2.1 mv.2.2).2,
          st.scratch_used_yet || (mv.2.1 == Allocation.reg scratch), edits2⟩

/-- Per-class handling inside one group: build the parallel-move problem,
resolve it, lazily allocate (once per class, memoized in the state) the extra
spill slot when the scratch is used and a stack-to-stack move exists, then
emit every resolved move. -/
def process_class_moves (func : Func) (pos : ProgPoint) (prio : InsertMovePrio)
    (regclass : RegClass) (st : RState) (moves : List InsertedMove) :
    Except RAErr RState := do
  let scratch := func.scratch_by_class regclass
  let parallel_moves :=
    (moves.filter (fun m => (m.from_alloc != m.to_alloc) || m.to_vreg.isSome)).map
      (fun m => (m.from_alloc, m.to_alloc, m.to_vreg))
  let resolved := parallel_moves_resolve (Allocation.reg scratch) parallel_moves
  let scratch_used := resolved.any (fun r =>
    r.1 == Allocation.reg scratch || r.2.1 == Allocation.reg scratch)
  let stack_stack_move := resolved.any (fun r => r.1.is_stack && r.2.1.is_stack)
  let alloc3 :=
    if scratch_used && stack_stack_move then
      match st.extra_spillslot regclass with
      | some a => (some a, st.extra_spillslot, st.next_spillslot)
      | Option.none =>
        let sn := allocate_spillslot st.next_spillslot regclass
        (some sn.1,
         fun c => if c = regclass then some sn.1 else st.extra_spillslot c,
         sn.2)
    else (Option.none, st.extra_spillslot, st.next_spillslot)
  let extra_slot := alloc3.1
  let final ← (resolved.foldlM (emit_resolved_move scratch extra_slot pos prio)
    ⟨st.redundant_moves, false, st.edits⟩ : Except RAErr EmitState)
  pure { st with redundant_moves := final.redundant_moves,
                 extra_spillslot := alloc3.2.1, next_spillslot := alloc3.2.2,
                 edits := final.edits }

/-- The class-equality assertion for register-to-register moves in the
partition loop of `resolve_inserted_moves`. -/
def assert_move_classes (m : InsertedMove) : Except RAErr Unit :=
  match m.from_alloc.as_reg, m.to_alloc.as_reg with
  | some f, some t =>
    if f.cls = t.cls then .ok () else .error .assertFail
  | _, _ => .ok ()

/-- Partition a group into Int-class moves, Float-class moves, and self-moves
(kept only when they carry a `to_vreg`), asserting class equality for
register-to-register moves. -/
def partition_moves : List InsertedMove →
    Except RAErr (List InsertedMove × List InsertedMove × List InsertedMove)
  | [] => .ok ([], [], [])
  | m :: rest =>
    assert_move_classes m >>= fun _ =>
    partition_moves rest >>= fun parts =>
    if m.from_alloc = m.to_alloc then
      if m.to_vreg.isSome then .ok (parts.1, parts.2.1, m :: parts.2.2)
      else .ok parts
    else
      match m.from_alloc.cls with
      | some RegClass.int => .ok (m :: parts.1, parts.2.1, parts.2.2)
      | some RegClass.float => .ok (parts.1, m :: parts.2.1, parts.2.2)
      | Option.none => .error .assertFail

/-- Self-moves only consult the eliminator (which must elide them — the
source asserts so) and emit a `DefAlloc` when requested. -/
def emit_self_moves (pos : ProgPoint) (prio : InsertMovePrio)
    (rm : RedundantMoveEliminator) (edits : List EditRec) :
    List InsertedMove → Except RAErr (RedundantMoveEliminator × List EditRec)
  | [] => .ok (rm, edits)
  | m :: rest =>
    let pm := rm.process_move m.from_alloc m.to_alloc m.to_vreg
    if pm.1.elide then
      emit_def_alloc pos prio edits pm.1.def_alloc >>= fun edits1 =>
        emit_self_moves pos prio pm.2 edits1 rest
    else .error .assertFail

/-- One `(pos, prio)` group: apply the between-group side effects to the
eliminator, partition, resolve and emit the Int then the Float moves, then
handle the self-moves. -/
def process_group (func : Func) (st : RState) (group : List InsertedMove)
    (pos : ProgPoint) (prio : InsertMovePrio) : Except RAErr RState := do
  let rm := redundant_move_process_side_effects func st.redundant_moves
    st.last_pos pos
  let st1 := { st with redundant_moves := rm, last_pos := pos }
  let parts ← partition_moves group
  let st2 ← process_class_moves func pos prio RegClass.int st1 parts.1
  let st3 ← process_class_moves func pos prio RegClass.float st2 parts.2.1
  let selfRes ← emit_self_moves pos prio st3.redundant_moves st3.edits parts.2.2
  pure { st3 with redundant_moves := selfRes.1, edits := selfRes.2 }

/-- Split the sorted move list into maximal runs of equal `(pos, prio)`,
exactly as the scanning loop of `resolve_inserted_moves` does. -/
def split_groups_go (cur : List InsertedMove) (curPos : ProgPoint)
    (curPrio : InsertMovePrio) : List InsertedMove → List (List InsertedMove)
  | [] => [cur.reverse]
  | m :: rest =>
    if m.pos = curPos ∧ m.prio = curPrio then
      split_groups_go (m :: cur) curPos curPrio rest
    else cur.reverse :: split_groups_go [m] m.pos m.prio rest

def split_groups : List InsertedMove → List (List InsertedMove)
  | [] => []
  | m :: rest => split_groups_go [m] m.pos m.prio rest

def resolve_groups (func : Func) : RState → List (List InsertedMove) →
    Except RAErr RState
  | st, [] => .ok st
  | st, g :: gs =>
    match g with
    | [] => resolve_groups func st gs
    | m :: _ => do
      let st' ← process_group func st g m.pos m.prio
      resolve_groups func st' gs

/-! ### Block-parameter `DefAlloc` emission -/

/-- A recorded blockparam allocation `(block, param_idx, vreg_index, alloc)`. -/
abbrev BlockparamAlloc := Nat × Nat × Nat × Allocation

def blockparam_split_go (curBlock : Nat) (cur : List BlockparamAlloc) :
    List BlockparamAlloc → List (Nat × List BlockparamAlloc)
  | [] => [(curBlock, cur.reverse)]
  | p :: rest =>
    if p.1 = curBlock then blockparam_split_go curBlock (p :: cur) rest
    else (curBlock, cur.reverse) :: blockparam_split_go p.1 [p] rest

def blockparam_split : List BlockparamAlloc → List (Nat × List BlockparamAlloc)
  | [] => []
  | p :: rest => blockparam_split_go p.1 [p] rest

/-- Per block: assert the recorded parameter count matches the block's
declared parameter list, then emit a `DefAlloc` at the block entry with
priority `BlockParam` for each. -/
def blockparam_group_edits (func : Func) (edits : List EditRec) (block : Nat)
    (params : List BlockparamAlloc) : Except RAErr (List EditRec) :=
  if params.length = func.block_params_len block then
    params.foldlM (fun es p =>
      add_edit es (func.block_entry block) .blockParam
        (.defAlloc p.2.2.2 (func.vreg_regs p.2.2.1))) edits
  else .error .assertFail

def blockparam_edits (func : Func) (edits : List EditRec)
    (bps : List BlockparamAlloc) : Except RAErr (List EditRec) :=
  let sorted := stable_sort_by_key (fun p : BlockparamAlloc => toLex (p.1, p.2.1)) bps
  (blockparam_split sorted).foldlM
    (fun es bp => blockparam_group_edits func es bp.1 bp.2) edits

/-! ### `resolve_inserted_moves`: the whole Phase B.3 pipeline -/

/-- Everything `resolve_inserted_moves` does before the final sort: sort the
inserted moves by `(pos.to_index(), prio)`, process each group, then append
the blockparam `DefAlloc`s. -/
def resolve_pre (func : Func) (blockparam_allocs : List BlockparamAlloc)
    (inserted_moves : List InsertedMove) : Except RAErr (List EditRec) := do
  let ms := stable_sort_by_key
    (fun m : InsertedMove => toLex (m.pos.to_index, m.prio.rank)) inserted_moves
  let st ← resolve_groups func init_rstate (split_groups ms)
  blockparam_edits func st.edits blockparam_allocs

/-- The final edit key `(pos, prio)` (the stored position index is already
`pos.to_index()`). -/
def edit_key (e : EditRec) : Lex (Nat × Nat) := toLex (e.1, e.2.1.rank)

/-- `resolve_inserted_moves`: the group pipeline followed by the final stable
sort of the edits by `(pos, prio)`. -/
def resolve_inserted_moves (func : Func)
    (blockparam_allocs : List BlockparamAlloc)
    (inserted_moves : List InsertedMove) : Except RAErr (List EditRec) :=
  (stable_sort_by_key edit_key) <$>
    resolve_pre func blockparam_allocs inserted_moves

/-- The Phase-A abutment scan for one vreg composed with the full Phase-B
resolution: the end-to-end pipeline the intra-block abutment claim is about. -/
def run_abutment_pipeline (func : Func) (pinned : Option PReg) (vreg : Nat)
    (ranges : List RangeEntry) (blockparam_allocs : List BlockparamAlloc) :
    Except RAErr (List EditRec) := do
  let ms ← abutment_moves func pinned vreg ranges
  resolve_inserted_moves func blockparam_allocs ms

/-- The resolution state just before the group at point `p` is processed
(groups strictly before `p` processed, side effects not yet applied). -/
def resolve_state_before (func : Func) (ms : List InsertedMove)
    (p : ProgPoint) : Except RAErr RState :=
  resolve_groups func init_rstate
    (split_groups (ms.takeWhile (fun m => m.pos.to_index < p.to_index)))

/-- Whether the redundant-move eliminator elides the (singleton-group) move
`m` of the sorted list `ms`, after the between-group side effects reaching
`m.pos` are applied. -/
def elides_at (func : Func) (ms : List InsertedMove) (m : InsertedMove) : Bool :=
  match resolve_state_before func ms m.pos with
  | .ok st =>
    (((redundant_move_process_side_effects func st.redundant_moves st.last_pos
        m.pos).process_move m.from_alloc m.to_alloc m.to_vreg).1).elide
  | .error _ => false

/-! ### Phase B.1: half-move matching and edge-move insertion -/

/-- The edge-insertion decision of half-move resolution: compute `from_outs`
and `to_ins`, place the moves at the tail of the predecessor
(`OutEdgeMoves`) or the head of the successor (`InEdgeMoves`), or fail
fatally on a critical edge, naming the two blocks. -/
def choose_edge_insertion (func : Func) (from_block to_block : Nat) :
    Except RAErr (ProgPoint × InsertMovePrio) :=
  let from_last_insn := func.block_insns_last from_block
  let to_first_insn := func.block_insns_first to_block
  let from_is_ret := func.is_ret from_last_insn
  let to_is_entry := func.entry_block = to_block
  let from_outs := (func.block_succs from_block).length +
    (if from_is_ret then 1 else 0)
  let to_ins := (func.block_preds to_block).length +
    (if to_is_entry then 1 else 0)
  if to_ins > 1 ∧ from_outs ≤ 1 then
    .ok (ProgPoint.before from_last_insn, .outEdgeMoves)
  else if to_ins ≤ 1 then
    .ok (ProgPoint.before to_first_insn, .inEdgeMoves)
  else .error (.criticalEdge from_block to_block)

/-- The matching context while scanning the sorted half-move list: the current
`Source`'s key and allocation, the insertion point chosen for its edge, and
the last destination allocation (for the adjacent-duplicate skip). -/
structure HalfMoveRun where
  src_key : Nat
  src_alloc : Allocation
  point : ProgPoint
  prio : InsertMovePrio
  last : Option Allocation
deriving Repr

/-- The scan over the sorted half-moves: a `Source` opens a run (choosing the
edge insertion point, which can fail on a critical edge); each immediately
following half-move whose key is `src.key | 1` is a matching `Dest` and
yields a move unless its allocation equals the previous destination's;
anything else closes the run, unmatched `Dest`s being skipped silently. -/
def resolve_half_moves_go (func : Func) :
    Option HalfMoveRun → List HalfMove → Except RAErr (List InsertedMove)
  | _, [] => .ok []
  | ctx, h :: rest =>
    match ctx with
    | some c =>
      if h.key = c.src_key ||| 1 then
        if c.last = some h.alloc then resolve_half_moves_go func (some c) rest
        else do
          let here ← insert_move [] c.point c.prio c.src_alloc h.alloc
            (some (func.vreg_regs h.to_vreg))
          let tail ← resolve_half_moves_go func
            (some { c with last := some h.alloc }) rest
          .ok (here ++ tail)
      else
        if h.kind = HalfMoveKind.source then do
          let ip ← choose_edge_insertion func h.from_block h.to_block
          resolve_half_moves_go func
            (some ⟨h.key, h.alloc, ip.1, ip.2, Option.none⟩) rest
        else resolve_half_moves_go func Option.none rest
    | Option.none =>
      if h.kind = HalfMoveKind.source then do
        let ip ← choose_edge_insertion func h.from_block h.to_block
        resolve_half_moves_go func
          (some ⟨h.key, h.alloc, ip.1, ip.2, Option.none⟩) rest
      else resolve_half_moves_go func Option.none rest

/-- Half-move resolution: sort by key, then scan. -/
def resolve_half_moves (func : Func) (hms : List HalfMove) :
    Except RAErr (List InsertedMove) :=
  resolve_half_moves_go func Option.none
    (stable_sort_by_key (fun h => h.key) hms)

/-! ### Phase B.2: program-move reification -/

/-- The zip loop reifying program moves: entries are `((vreg, inst), alloc)`;
the source asserts equal lengths, non-`None` allocations, and
`from_inst == to_inst.prev()`, then enqueues a `Regular` move at
`Before(to_inst)`. -/
def reify_prog_moves_go (vreg_regs : Nat → Nat) :
    List ((Nat × Nat) × Allocation) → List ((Nat × Nat) × Allocation) →
    Except RAErr (List InsertedMove)
  | [], [] => .ok []
  | src :: ss, dst :: ds =>
    let from_inst := src.1.2
    let from_alloc := src.2
    let to_vreg := dst.1.1
    let to_inst := dst.1.2
    let to_alloc := dst.2
    if from_alloc.is_none then .error .assertFail
    else if to_alloc.is_none then .error .assertFail
    else if (from_inst : Int) = (to_inst : Int) - 1 then do
      let tail ← reify_prog_moves_go vreg_regs ss ds
      .ok (⟨ProgPoint.before to_inst, .regular, from_alloc, to_alloc,
        some (vreg_regs to_vreg)⟩ :: tail)
    else .error .assertFail
  | _, _ => .error .assertFail

/-- `prog_move_srcs` sorted by instruction. -/
def sorted_prog_move_srcs (srcs : List ((Nat × Nat) × Allocation)) :
    List ((Nat × Nat) × Allocation) :=
  stable_sort_by_key (fun e => (e.1.2 : Nat)) srcs

/-- `prog_move_dsts` sorted by predecessor instruction (`inst.prev()`). -/
def sorted_prog_move_dsts (dsts : List ((Nat × Nat) × Allocation)) :
    List ((Nat × Nat) × Allocation) :=
  stable_sort_by_key (fun e => (e.1.2 : Int) - 1) dsts

/-- Program-move reification: sort the sources by instruction, the
destinations by predecessor instruction, and zip. -/
def reify_prog_moves (vreg_regs : Nat → Nat)
    (srcs dsts : List ((Nat × Nat) × Allocation)) :
    Except RAErr (List InsertedMove) :=
  reify_prog_moves_go vreg_regs (sorted_prog_move_srcs srcs)
    (sorted_prog_move_dsts dsts)

/-! ### Derived predicates used in the statements -/

def Edit.isMove : Edit → Bool
  | .move _ _ _ => true
  | .defAlloc _ _ => false

/-- The edit-stream invariant: a `Move` whose endpoints coincide carries a
`to_vreg`. -/
def no_trivial_self_move (e : EditRec) : Prop :=
  ∀ f t v, e.2.2 = Edit.move f t v → f = t → v ≠ Option.none

/-! ### Concrete instances used by witnesses and counterexamples -/

/-- A one-block function with six instructions, no operands, no clobbers and
no safepoints; block 1 exists with no predecessors. -/
def wFunc : Func where
  insn_block := fun _ => 0
  block_entry := fun _ => ProgPoint.before 0
  entry_block := 0
  block_insns_first := fun _ => 0
  block_insns_last := fun _ => 5
  block_succs := fun _ => []
  block_preds := fun _ => []
  block_params_len := fun _ => 0
  is_ret := fun _ => false
  is_safepoint := fun _ => false
  inst_operands := fun _ => []
  operand_alloc := fun _ _ => Allocation.none
  inst_clobbers := fun _ => []
  scratch_by_class := fun c => ⟨0, c⟩
  vreg_regs := fun v => v

def wr1 : Allocation := .reg ⟨1, .int⟩

def wr2 : Allocation := .reg ⟨2, .int⟩

def ws0 : Allocation := .stack ⟨10, .int⟩

def ws1 : Allocation := .stack ⟨11, .int⟩

/-- Four abutting ranges of one vreg inside block 0, allocated alternately to
`wr1`, `wr2`, `wr1`, `wr2`. -/
def wC1Ranges : List RangeEntry :=
  [⟨ProgPoint.before 0, ProgPoint.before 1, wr1, false⟩,
   ⟨ProgPoint.before 1, ProgPoint.before 2, wr2, false⟩,
   ⟨ProgPoint.before 2, ProgPoint.before 3, wr1, false⟩,
   ⟨ProgPoint.before 3, ProgPoint.before 4, wr2, false⟩]

/-- The abutment moves Phase A enqueues for `wC1Ranges`. -/
def wC1Moves : List InsertedMove :=
  [⟨ProgPoint.before 1, .regular, wr1, wr2, some 0⟩,
   ⟨ProgPoint.before 2, .regular, wr2, wr1, some 0⟩,
   ⟨ProgPoint.before 3, .regular, wr1, wr2, some 0⟩]

/-- The final edits of the pipeline on `wC1Ranges`: the third abutment move
is elided (both registers hold vreg 0 by then) and leaves only a `DefAlloc`. -/
def wC1Edits : List EditRec :=
  [(2, .regular, .move wr1 wr2 (some 0)),
   (4, .regular, .move wr2 wr1 (some 0)),
   (6, .regular, .defAlloc wr2 0)]

/-- The half-move key for `(from_block 1, to_block 2, to_vreg 3, Source)`. -/
def wKey : Nat := (1 <<< 43) ||| (2 <<< 22) ||| (3 <<< 1)

/-- A `Dest` run whose allocations are `wr2`, `ws0`, `wr2`: the two `wr2`
destinations are not adjacent, so the adjacent-duplicate skip keeps both. -/
def wC5Dests : List HalfMove :=
  [⟨wKey ||| 1, wr2⟩, ⟨wKey ||| 1, ws0⟩, ⟨wKey ||| 1, wr2⟩]

/-- The moves the half-move scan inserts for `⟨wKey, wr1⟩ :: wC5Dests`. -/
def wC5Moves : List InsertedMove :=
  [⟨ProgPoint.before 0, .inEdgeMoves, wr1, wr2, some 3⟩,
   ⟨ProgPoint.before 0, .inEdgeMoves, wr1, ws0, some 3⟩,
   ⟨ProgPoint.before 0, .inEdgeMoves, wr1, wr2, some 3⟩]

/-- A matching context for the run of `wC5Dests`. -/
def wC5Run : HalfMoveRun :=
  ⟨wKey, wr1, ProgPoint.before 0, .inEdgeMoves, Option.none⟩

/-- The per-position-and-priority edit property tracked through one group. -/
def keyed_edit (pos : ProgPoint) (prio : InsertMovePrio) (e : EditRec) : Prop :=
  e.1 = pos.to_index ∧ e.2.1 = prio ∧ no_trivial_self_move e

/-! ## Theorems -/

/-! ### The stable sort: permutation, sortedness, stability, identity on
sorted input -/

theorem insert_by_key_perm {α β : Type} [LinearOrder β] (key : α → β) (x : α)
    (l : List α) : List.Perm (insert_by_key key x l) (x :: l) := by
  induction l with
  | nil => simp [insert_by_key]
  | cons y ys ih =>
    simp only [insert_by_key]
    by_cases h : key y < key x
    · rw [if_pos h]
      exact (ih.cons y).trans (List.Perm.swap x y ys)
    · rw [if_neg h]

theorem stable_sort_by_key_perm {α β : Type} [LinearOrder β] (key : α → β)
    (l : List α) : List.Perm (stable_sort_by_key key l) l := by
  induction l with
  | nil => exact List.Perm.refl _
  | cons x xs ih =>
    simpa [stable_sort_by_key] using (insert_by_key_perm key x _).trans (ih.cons x)

theorem insert_by_key_pairwise {α β : Type} [LinearOrder β] (key : α → β)
    (x : α) (l : List α) (h : l.Pairwise (fun a b => key a ≤ key b)) :
    (insert_by_key key x l).Pairwise (fun a b => key a ≤ key b) := by
  induction l with
  | nil => simp [insert_by_key]
  | cons y ys ih =>
    rcases List.pairwise_cons.mp h with ⟨hy, hys⟩
    simp only [insert_by_key]
    by_cases hlt : key y < key x
    · rw [if_pos hlt]
      refine List.pairwise_cons.mpr ⟨?_, ih hys⟩
      intro b hb
      rcases List.mem_cons.mp ((insert_by_key_perm key x ys).mem_iff.mp hb) with
        rfl | hbys
      · exact le_of_lt hlt
      · exact hy b hbys
    · rw [if_neg hlt]
      refine List.pairwise_cons.mpr ⟨?_, h⟩
      intro b hb
      rcases List.mem_cons.mp hb with rfl | hbys
      · exact le_of_not_lt hlt
      · exact le_trans (le_of_not_lt hlt) (hy b hbys)

theorem stable_sort_by_key_pairwise {α β : Type} [LinearOrder β] (key : α → β)
    (l : List α) :
    (stable_sort_by_key key l).Pairwise (fun a b => key a ≤ key b) := by
  induction l with
  | nil => simp [stable_sort_by_key]
  | cons x xs ih => exact insert_by_key_pairwise key x _ ih

theorem insert_by_key_filter_pos {α β : Type} [LinearOrder β] (key : α → β)
    (x : α) (l : List α) (p : α → Bool) (hx : p x = true)
    (hsame : ∀ a, p a = true → key a = key x) :
    (insert_by_key key x l).filter p = x :: l.filter p := by
  induction l with
  | nil => simp [insert_by_key, List.filter_cons, hx]
  | cons y ys ih =>
    simp only [insert_by_key]
    by_cases hlt : key y < key x
    · rw [if_pos hlt]
      have hpy : p y = false := by
        cases hy : p y
        · rfl
        · exact absurd (hsame y hy) (fun he => absurd hlt (by rw [he]; exact lt_irrefl _))
      simp only [List.filter_cons, hpy, Bool.false_eq_true, if_false, ih]
    · rw [if_neg hlt]
      simp only [List.filter_cons, hx, if_true]

theorem insert_by_key_filter_neg {α β : Type} [LinearOrder β] (key : α → β)
    (x : α) (l : List α) (p : α → Bool) (hx : p x = false) :
    (insert_by_key key x l).filter p = l.filter p := by
  induction l with
  | nil => simp [insert_by_key, List.filter_cons, hx]
  | cons y ys ih =>
    simp only [insert_by_key]
    by_cases hlt : key y < key x
    · rw [if_pos hlt]
      simp only [List.filter_cons, ih]
    · rw [if_neg hlt]
      simp only [List.filter_cons, hx, Bool.false_eq_true, if_false]

theorem stable_sort_by_key_filter {α β : Type} [LinearOrder β] (key : α → β)
    (p : α → Bool) (hsame : ∀ a b, p a = true → p b = true → key a = key b) :
    ∀ l : List α, (stable_sort_by_key key l).filter p = l.filter p := by
  intro l
  induction l with
  | nil => rfl
  | cons x xs ih =>
    simp only [stable_sort_by_key]
    cases hx : p x with
    | true =>
      rw [insert_by_key_filter_pos key x _ p hx (fun a ha => hsame a x ha hx),
        ih]
      simp only [List.filter_cons, hx, if_true]
    | false =>
      rw [insert_by_key_filter_neg key x _ p hx, ih]
      simp only [List.filter_cons, hx, Bool.false_eq_true, if_false]

theorem insert_by_key_of_le {α β : Type} [LinearOrder β] (key : α → β) (x : α)
    (l : List α) (h : ∀ b ∈ l, key x ≤ key b) : insert_by_key key x l = x :: l := by
  cases l with
  | nil => rfl
  | cons y ys =>
    simp only [insert_by_key]
    rw [if_neg (not_lt.mpr (h y (List.mem_cons_self y ys)))]

theorem stable_sort_by_key_of_sorted {α β : Type} [LinearOrder β] (key : α → β)
    (l : List α) (h : l.Pairwise (fun a b => key a ≤ key b)) :
    stable_sort_by_key key l = l := by
  induction l with
  | nil => rfl
  | cons x xs ih =>
    rcases List.pairwise_cons.mp h with ⟨hx, hxs⟩
    simp only [stable_sort_by_key]
    rw [ih hxs, insert_by_key_of_le key x xs hx]

/-! ### C2: the edge-insertion decision -/

/-- C2: during half-move resolution, with
`from_outs = |succs(from_block)| + (is_ret(last_inst) ? 1 : 0)` and
`to_ins = |preds(to_block)| + (to_block == entry ? 1 : 0)`: if `to_ins > 1`
and `from_outs ≤ 1` the moves go at `Before(last_inst(from_block))` with
priority `OutEdgeMoves`; else if `to_ins ≤ 1` they go at
`Before(first_inst(to_block))` with priority `InEdgeMoves`; else the core
fails fatally with a critical-edge diagnostic naming the two blocks. -/
theorem c2_edge_insertion (func : Func) (from_block to_block : Nat) :
    (((func.block_preds to_block).length +
        (if func.entry_block = to_block then 1 else 0) > 1 ∧
      (func.block_succs from_block).length +
        (if func.is_ret (func.block_insns_last from_block) then 1 else 0) ≤ 1) →
      choose_edge_insertion func from_block to_block =
        .ok (ProgPoint.before (func.block_insns_last from_block),
             InsertMovePrio.outEdgeMoves)) ∧
    (((func.block_preds to_block).length +
        (if func.entry_block = to_block then 1 else 0) ≤ 1) →
      choose_edge_insertion func from_block to_block =
        .ok (ProgPoint.before (func.block_insns_first to_block),
             InsertMovePrio.inEdgeMoves)) ∧
    (((func.block_preds to_block).length +
        (if func.entry_block = to_block then 1 else 0) > 1 ∧
      (func.block_succs from_block).length +
        (if func.is_ret (func.block_insns_last from_block) then 1 else 0) > 1) →
      choose_edge_insertion func from_block to_block =
        .error (.criticalEdge from_block to_block)) := by
  simp only [choose_edge_insertion]
  refine ⟨fun h => ?_, fun h => ?_, fun h => ?_⟩
  · rw [if_pos h]
  · rw [if_neg (fun hc => by omega), if_pos h]
  · rw [if_neg (fun hc => by omega), if_neg (fun hc => by omega)]

/-- Witness for C2: with no predecessors and entry block 0, the edge `0 → 1`
places its moves at the head of block 1 with priority `InEdgeMoves`. -/
theorem c2_edge_insertion_witness :
    choose_edge_insertion wFunc 0 1 =
      .ok (ProgPoint.before 0, InsertMovePrio.inEdgeMoves) :=
  (c2_edge_insertion wFunc 0 1).2.1 (by decide)

/-! ### C9: the half-move key encoding -/

theorem lor_eq_add_of_lt {a b n : Nat} (h : b < 2 ^ n) :
    (a <<< n) ||| b = a * 2 ^ n + b := by
  rw [Nat.shiftLeft_eq, Nat.mul_comm a (2 ^ n)]
  exact (Nat.mul_add_lt_is_or h a).symm

theorem half_move_key_value (fb tb tv k : Nat)
    (htb : tb < 2 ^ 21) (htv : tv < 2 ^ 21) (hk : k < 2) :
    (fb <<< 43) ||| (tb <<< 22) ||| (tv <<< 1) ||| k =
      fb * 2 ^ 43 + tb * 2 ^ 22 + tv * 2 + k := by
  have e1 : (fb <<< 43) ||| (tb <<< 22) = fb * 2 ^ 43 + tb * 2 ^ 22 := by
    have hb : tb <<< 22 < 2 ^ 43 := by rw [Nat.shiftLeft_eq]; omega
    rw [lor_eq_add_of_lt hb, Nat.shiftLeft_eq]
  have e2 : fb * 2 ^ 43 + tb * 2 ^ 22 = (fb * 2 ^ 21 + tb) <<< 22 := by
    rw [Nat.shiftLeft_eq]; omega
  have e3 : ((fb * 2 ^ 21 + tb) <<< 22) ||| (tv <<< 1) =
      (fb * 2 ^ 21 + tb) * 2 ^ 22 + tv * 2 := by
    have hb : tv <<< 1 < 2 ^ 22 := by rw [Nat.shiftLeft_eq]; omega
    rw [lor_eq_add_of_lt hb, Nat.shiftLeft_eq]
  have e4 : (fb * 2 ^ 21 + tb) * 2 ^ 22 + tv * 2 =
      ((fb * 2 ^ 21 + tb) * 2 ^ 21 + tv) <<< 1 := by
    rw [Nat.shiftLeft_eq]; omega
  have e5 : (((fb * 2 ^ 21 + tb) * 2 ^ 21 + tv) <<< 1) ||| k =
      ((fb * 2 ^ 21 + tb) * 2 ^ 21 + tv) * 2 + k := by
    have hb : k < 2 ^ 1 := by omega
    rw [lor_eq_add_of_lt hb, pow_one]
  rw [e1, e2, e3, e4, e5]
  omega

theorem hm_mask_eq : (1 : Nat) <<< 21 - 1 = 2 ^ 21 - 1 := by
  norm_num [Nat.shiftLeft_eq]

/-- C9: for fields strictly below `2^21` the 64-bit half-move key round-trips
through the accessors (hence is injective), compares lexicographically by
`(from_block, to_block, to_vreg, kind)` with `Source` before `Dest`, and an
out-of-range field fails the runtime check. -/
theorem c9_half_move_key_encoding
    (fb tb tv fb' tb' tv' : Nat) (kd kd' : HalfMoveKind) (a : Allocation)
    (hfb : fb < 2 ^ 21) (htb : tb < 2 ^ 21) (htv : tv < 2 ^ 21)
    (hfb' : fb' < 2 ^ 21) (htb' : tb' < 2 ^ 21) (htv' : tv' < 2 ^ 21) :
    ∃ K K' : Nat,
      half_move_key fb tb tv kd = .ok K ∧
      half_move_key fb' tb' tv' kd' = .ok K' ∧
      (HalfMove.mk K a).from_block = fb ∧
      (HalfMove.mk K a).to_block = tb ∧
      (HalfMove.mk K a).to_vreg = tv ∧
      (HalfMove.mk K a).kind = kd ∧
      (K = K' ↔ fb = fb' ∧ tb = tb' ∧ tv = tv' ∧ kd = kd') ∧
      (K < K' ↔ (fb < fb' ∨ (fb = fb' ∧ (tb < tb' ∨ (tb = tb' ∧
        (tv < tv' ∨ (tv = tv' ∧ kd.toNat < kd'.toNat))))))) ∧
      ((fb = fb' ∧ tb = tb' ∧ tv = tv' ∧ kd = .source ∧ kd' = .dest) → K < K') ∧
      (∀ fb₀ tb₀ tv₀ kd₀, ¬ (fb₀ < 2 ^ 21 ∧ tb₀ < 2 ^ 21 ∧ tv₀ < 2 ^ 21) →
        half_move_key fb₀ tb₀ tv₀ kd₀ = .error .assertFail) := by
  have h21 : (1 : Nat) <<< 21 = 2 ^ 21 := by norm_num [Nat.shiftLeft_eq]
  have hkd : kd.toNat < 2 := by cases kd <;> simp [HalfMoveKind.toNat]
  have hkd' : kd'.toNat < 2 := by cases kd' <;> simp [HalfMoveKind.toNat]
  refine ⟨fb * 2 ^ 43 + tb * 2 ^ 22 + tv * 2 + kd.toNat,
          fb' * 2 ^ 43 + tb' * 2 ^ 22 + tv' * 2 + kd'.toNat,
          ?_, ?_, ?_, ?_, ?_, ?_, ?_, ?_, ?_, ?_⟩
  · simp only [half_move_key, h21]
    rw [if_pos ⟨hfb, htb, htv⟩, half_move_key_value fb tb tv kd.toNat htb htv hkd]
  · simp only [half_move_key, h21]
    rw [if_pos ⟨hfb', htb', htv'⟩,
      half_move_key_value fb' tb' tv' kd'.toNat htb' htv' hkd']
  · simp only [HalfMove.from_block, hm_mask_eq, Nat.shiftRight_eq_div_pow,
      Nat.and_pow_two_sub_one_eq_mod]
    omega
  · simp only [HalfMove.to_block, hm_mask_eq, Nat.shiftRight_eq_div_pow,
      Nat.and_pow_two_sub_one_eq_mod]
    omega
  · simp only [HalfMove.to_vreg, hm_mask_eq, Nat.shiftRight_eq_div_pow,
      Nat.and_pow_two_sub_one_eq_mod]
    omega
  · simp only [HalfMove.kind, Nat.and_one_is_mod]
    cases kd with
    | source =>
      simp only [HalfMoveKind.toNat]
      rw [if_neg (by omega)]
    | dest =>
      simp only [HalfMoveKind.toNat]
      rw [if_pos (by omega)]
  · constructor
    · intro h
      have h1 : fb = fb' ∧ tb = tb' ∧ tv = tv' ∧ kd.toNat = kd'.toNat := by omega
      refine ⟨h1.1, h1.2.1, h1.2.2.1, ?_⟩
      cases kd <;> cases kd' <;> simp_all [HalfMoveKind.toNat]
    · rintro ⟨rfl, rfl, rfl, rfl⟩
      rfl
  · constructor
    · intro h
      omega
    · intro h
      omega
  · rintro ⟨rfl, rfl, rfl, rfl, rfl⟩
    simp only [HalfMoveKind.toNat]
    omega
  · intro fb₀ tb₀ tv₀ kd₀ h
    simp only [half_move_key, h21]
    rw [if_neg h]

/-- Witness for C9 at the concrete fields `(1,2,3,Source)` and `(4,5,6,Dest)`. -/
theorem c9_half_move_key_encoding_witness :
    ∃ K K' : Nat,
      half_move_key 1 2 3 .source = .ok K ∧
      half_move_key 4 5 6 .dest = .ok K' ∧
      (HalfMove.mk K Allocation.none).from_block = 1 ∧
      (HalfMove.mk K Allocation.none).to_block = 2 ∧
      (HalfMove.mk K Allocation.none).to_vreg = 3 ∧
      (HalfMove.mk K Allocation.none).kind = .source ∧
      (K = K' ↔ 1 = 4 ∧ 2 = 5 ∧ 3 = 6 ∧ HalfMoveKind.source = HalfMoveKind.dest) ∧
      (K < K' ↔ (1 < 4 ∨ (1 = 4 ∧ (2 < 5 ∨ (2 = 5 ∧
        (3 < 6 ∨ (3 = 6 ∧ HalfMoveKind.source.toNat < HalfMoveKind.dest.toNat))))))) ∧
      ((1 = 4 ∧ 2 = 5 ∧ 3 = 6 ∧ HalfMoveKind.source = HalfMoveKind.source ∧
        HalfMoveKind.dest = HalfMoveKind.dest) → K < K') ∧
      (∀ fb₀ tb₀ tv₀ kd₀, ¬ (fb₀ < 2 ^ 21 ∧ tb₀ < 2 ^ 21 ∧ tv₀ < 2 ^ 21) →
        half_move_key fb₀ tb₀ tv₀ kd₀ = .error .assertFail) :=
  c9_half_move_key_encoding 1 2 3 4 5 6 .source .dest Allocation.none
    (by decide) (by decide) (by decide) (by decide) (by decide) (by decide)

/-! ### Reduction helpers for the `Except` monad -/

theorem except_bind_ok {ε α β : Type} (a : α) (f : α → Except ε β) :
    (Except.ok a >>= f : Except ε β) = f a := rfl

theorem except_bind_error {ε α β : Type} (e : ε) (f : α → Except ε β) :
    ((Except.error e : Except ε α) >>= f) = Except.error e := rfl

theorem except_pure_bind {ε α β : Type} (a : α) (f : α → Except ε β) :
    ((pure a : Except ε α) >>= f) = f a := rfl

/-! ### C5: destination deduplication in half-move resolution -/

theorem insert_move_ok (moves : List InsertedMove) (pos : ProgPoint)
    (prio : InsertMovePrio) (f t : Allocation) (v : Option Nat)
    (out : List InsertedMove) (h : insert_move moves pos prio f t v = .ok out) :
    out = moves ++ [⟨pos, prio, f, t, v⟩] := by
  unfold insert_move at h
  split at h
  · split at h
    · simp only [Except.ok.injEq] at h
      exact h.symm
    · simp at h
  · simp only [Except.ok.injEq] at h
    exact h.symm

theorem resolve_half_moves_go_run_chain (func : Func) :
    ∀ (dests : List HalfMove) (c : HalfMoveRun) (out : List InsertedMove),
      (∀ h ∈ dests, h.key = c.src_key ||| 1) →
      resolve_half_moves_go func (some c) dests = .ok out →
      List.Chain' (fun a b => a.to_alloc ≠ b.to_alloc) out ∧
      (∀ m, out.head? = some m → c.last ≠ some m.to_alloc) ∧
      (∀ m ∈ out, m.pos = c.point ∧ m.prio = c.prio ∧
        m.from_alloc = c.src_alloc) := by
  intro dests
  induction dests with
  | nil =>
    intro c out _ h
    simp only [resolve_half_moves_go, Except.ok.injEq] at h
    subst h
    exact ⟨List.chain'_nil, by simp, by simp⟩
  | cons d rest ih =>
    intro c out hk h
    have hd : d.key = c.src_key ||| 1 := hk d (List.mem_cons_self d rest)
    have hrest : ∀ h ∈ rest, h.key = c.src_key ||| 1 :=
      fun x hx => hk x (List.mem_cons_of_mem d hx)
    simp only [resolve_half_moves_go] at h
    rw [if_pos hd] at h
    by_cases hlast : c.last = some d.alloc
    · rw [if_pos hlast] at h
      exact ih c out hrest h
    · rw [if_neg hlast] at h
      cases hins : insert_move [] c.point c.prio c.src_alloc d.alloc
          (some (func.vreg_regs d.to_vreg)) with
      | error e => rw [hins, except_bind_error] at h; simp at h
      | ok here =>
        rw [hins, except_bind_ok] at h
        have hhere : here = [⟨c.point, c.prio, c.src_alloc, d.alloc,
            some (func.vreg_regs d.to_vreg)⟩] :=
          insert_move_ok [] _ _ _ _ _ _ hins
        cases htail : resolve_half_moves_go func
            (some { c with last := some d.alloc }) rest with
        | error e => rw [htail, except_bind_error] at h; simp at h
        | ok tail =>
          rw [htail, except_bind_ok] at h
          simp only [Except.ok.injEq] at h
          rcases ih { c with last := some d.alloc } tail hrest htail with
            ⟨hchain, hhead, hall⟩
          subst h
          subst hhere
          refine ⟨?_, ?_, ?_⟩
          · simp only [List.singleton_append]
            refine List.chain'_cons'.mpr ⟨?_, hchain⟩
            intro m hm
            have hne := hhead m (Option.mem_def.mp hm)
            intro hEq
            exact hne (congrArg some hEq)
          · intro m hm
            simp only [List.singleton_append, List.head?_cons,
              Option.some.injEq] at hm
            subst hm
            exact hlast
          · intro m hm
            simp only [List.singleton_append, List.mem_cons] at hm
            rcases hm with rfl | hm
            · exact ⟨rfl, rfl, rfl⟩
            · exact hall m hm

/-- C5 (amended): the deduplication in half-move resolution is only of
adjacent destinations in the sorted `Dest` run: for a matched run, no two
consecutive inserted moves share a destination allocation (and all the run's
moves share the edge's insertion point, priority and source allocation); two
equal destination allocations separated by a different one both produce
moves. -/
theorem c5_dedup_adjacent (func : Func) (c : HalfMoveRun)
    (dests : List HalfMove) (out : List InsertedMove)
    (hk : ∀ h ∈ dests, h.key = c.src_key ||| 1)
    (h : resolve_half_moves_go func (some c) dests = .ok out) :
    List.Chain' (fun a b => a.to_alloc ≠ b.to_alloc) out ∧
    ∀ m ∈ out, m.pos = c.point ∧ m.prio = c.prio ∧
      m.from_alloc = c.src_alloc :=
  ⟨(resolve_half_moves_go_run_chain func dests c out hk h).1,
   (resolve_half_moves_go_run_chain func dests c out hk h).2.2⟩

/-- Witness for the amended C5 on the concrete run `wC5Dests`. -/
theorem c5_dedup_adjacent_witness :
    List.Chain' (fun a b => a.to_alloc ≠ b.to_alloc) wC5Moves ∧
    ∀ m ∈ wC5Moves, m.pos = wC5Run.point ∧ m.prio = wC5Run.prio ∧
      m.from_alloc = wC5Run.src_alloc :=
  c5_dedup_adjacent wFunc wC5Run wC5Dests wC5Moves (by decide) rfl

/-- C5 counterexample: the dedup is not by destination allocation across the
whole run.  On the run `wr2, ws0, wr2` the scan inserts three moves for the
one edge `(1, 2, vreg 3)`, two of which have the same destination allocation
`wr2` — the claim's "one move per distinct destination allocation" fails. -/
theorem c5_counterexample :
    resolve_half_moves wFunc (⟨wKey, wr1⟩ :: wC5Dests) = .ok wC5Moves ∧
    wC5Moves.length = 3 ∧
    (wC5Moves.filter (fun m => m.to_alloc == wr2)).length = 2 ∧
    ∀ m ∈ wC5Moves, m.pos = ProgPoint.before 0 ∧
      m.prio = InsertMovePrio.inEdgeMoves ∧ m.from_alloc = wr1 ∧
      m.to_vreg = some 3 :=
  ⟨rfl, by decide, by decide, by decide⟩

/-! ### C10: unmatched Dest half-moves are skipped silently -/

theorem kind_dest_iff (h : HalfMove) :
    h.kind = HalfMoveKind.dest ↔ h.key % 2 = 1 := by
  simp only [HalfMove.kind, Nat.and_one_is_mod]
  by_cases hx : h.key % 2 = 1
  · simp [hx]
  · simp [hx]

theorem kind_source_iff (h : HalfMove) :
    h.kind = HalfMoveKind.source ↔ h.key % 2 = 0 := by
  have hd := kind_dest_iff h
  constructor
  · intro hs
    by_contra hne
    have h1 : h.key % 2 = 1 := by omega
    have := hd.mpr h1
    rw [hs] at this
    cases this
  · intro h0
    cases hk : h.kind with
    | source => rfl
    | dest =>
      have := hd.mp hk
      omega

theorem lor_one_of_even {n : Nat} (h : n % 2 = 0) : n ||| 1 = n + 1 := by
  have hn : n = (n / 2) <<< 1 := by rw [Nat.shiftLeft_eq]; omega
  rw [hn, lor_eq_add_of_lt (show 1 < 2 ^ 1 by omega)]
  rw [Nat.shiftLeft_eq]

theorem go_ctx_irrelevant (func : Func) (c : HalfMoveRun) (l : List HalfMove)
    (h : ∀ x, l.head? = some x → ¬ (x.key = c.src_key ||| 1)) :
    resolve_half_moves_go func (some c) l =
      resolve_half_moves_go func Option.none l := by
  cases l with
  | nil => rfl
  | cons x rest =>
    have hx := h x rfl
    simp only [resolve_half_moves_go]
    rw [if_neg hx]

theorem go_skip_unmatched_dest (func : Func) (d : HalfMove)
    (hd : d.kind = HalfMoveKind.dest) :
    ∀ (pre post : List HalfMove) (ctx : Option HalfMoveRun),
      List.Pairwise (fun a b => a.key ≤ b.key) (pre ++ d :: post) →
      (∀ s ∈ pre ++ d :: post, s.kind = HalfMoveKind.source →
        s.key >>> 1 ≠ d.key >>> 1) →
      (∀ c, ctx = some c → c.src_key ||| 1 < d.key) →
      resolve_half_moves_go func ctx (pre ++ d :: post) =
        resolve_half_moves_go func ctx (pre ++ post) := by
  have hdodd : d.key % 2 = 1 := (kind_dest_iff d).mp hd
  intro pre
  induction pre with
  | nil =>
    intro post ctx hsort hns hctx
    have hsort0 : List.Pairwise (fun a b => a.key ≤ b.key) (d :: post) := by
      simpa using hsort
    have hpost : ∀ x, post.head? = some x → d.key ≤ x.key := by
      intro x hx
      cases post with
      | nil => simp at hx
      | cons y ys =>
        have hxy : y = x := by simpa using hx
        subst hxy
        exact (List.pairwise_cons.mp hsort0).1 y (List.mem_cons_self y ys)
    cases ctx with
    | none =>
      simp only [List.nil_append, resolve_half_moves_go]
      have : ¬ (d.kind = HalfMoveKind.source) := by
        rw [hd]; intro hc; cases hc
      rw [if_neg this]
    | some c =>
      have hlt : c.src_key ||| 1 < d.key := hctx c rfl
      simp only [List.nil_append]
      have h1 : resolve_half_moves_go func (some c) (d :: post) =
          resolve_half_moves_go func Option.none post := by
        simp only [resolve_half_moves_go]
        rw [if_neg (by omega)]
        have : ¬ (d.kind = HalfMoveKind.source) := by
          rw [hd]; intro hc; cases hc
        rw [if_neg this]
      have h2 : resolve_half_moves_go func (some c) post =
          resolve_half_moves_go func Option.none post := by
        apply go_ctx_irrelevant
        intro x hx
        have := hpost x hx
        omega
      rw [h1, h2]
  | cons x pre' ih =>
    intro post ctx hsort hns hctx
    have hsort' : List.Pairwise (fun a b => a.key ≤ b.key)
        (pre' ++ d :: post) := (List.pairwise_cons.mp hsort).2
    have hns' : ∀ s ∈ pre' ++ d :: post, s.kind = HalfMoveKind.source →
        s.key >>> 1 ≠ d.key >>> 1 :=
      fun s hs => hns s (List.mem_cons_of_mem x hs)
    have hxd : x.key ≤ d.key := by
      refine (List.pairwise_cons.mp hsort).1 d ?_
      exact List.mem_append_right pre' (List.mem_cons_self d post)
    have hfresh : ∀ ctx', (∀ c, ctx' = some c → c.src_key ||| 1 < d.key) →
        resolve_half_moves_go func ctx' (pre' ++ d :: post) =
          resolve_half_moves_go func ctx' (pre' ++ post) :=
      fun ctx' h' => ih post ctx' hsort' hns' h'
    have hsrc_new : x.kind = HalfMoveKind.source → x.key ||| 1 < d.key := by
      intro hxs
      have hxe : x.key % 2 = 0 := (kind_source_iff x).mp hxs
      have hne : x.key >>> 1 ≠ d.key >>> 1 :=
        hns x (List.mem_cons_self x _) hxs
      rw [Nat.shiftRight_eq_div_pow, Nat.shiftRight_eq_div_pow] at hne
      rw [lor_one_of_even hxe]
      simp only [pow_one] at hne
      omega
    -- both sides process `x` the same way and recurse
    cases ctx with
    | some c =>
      simp only [List.cons_append, resolve_half_moves_go]
      by_cases hmatch : x.key = c.src_key ||| 1
      · rw [if_pos hmatch, if_pos hmatch]
        by_cases hlast : c.last = some x.alloc
        · rw [if_pos hlast, if_pos hlast]
          exact hfresh (some c) hctx
        · rw [if_neg hlast, if_neg hlast]
          cases hins : insert_move [] c.point c.prio c.src_alloc x.alloc
              (some (func.vreg_regs x.to_vreg)) with
          | error e => rfl
          | ok here =>
            simp only [except_bind_ok, List.append_eq]
            rw [hfresh (some { c with last := some x.alloc })
              (fun c' hc' => by cases hc'; exact hctx c rfl)]
      · rw [if_neg hmatch, if_neg hmatch]
        by_cases hxs : x.kind = HalfMoveKind.source
        · rw [if_pos hxs, if_pos hxs]
          cases hch : choose_edge_insertion func x.from_block x.to_block with
          | error e => rfl
          | ok ip =>
            simp only [except_bind_ok, List.append_eq]
            exact hfresh (some ⟨x.key, x.alloc, ip.1, ip.2, Option.none⟩)
              (fun c' hc' => by cases hc'; exact hsrc_new hxs)
        · rw [if_neg hxs, if_neg hxs]
          exact hfresh Option.none (by simp)
    | none =>
      simp only [List.cons_append, resolve_half_moves_go]
      by_cases hxs : x.kind = HalfMoveKind.source
      · rw [if_pos hxs, if_pos hxs]
        cases hch : choose_edge_insertion func x.from_block x.to_block with
        | error e => rfl
        | ok ip =>
          simp only [except_bind_ok, List.append_eq]
          exact hfresh (some ⟨x.key, x.alloc, ip.1, ip.2, Option.none⟩)
            (fun c' hc' => by cases hc'; exact hsrc_new hxs)
      · rw [if_neg hxs, if_neg hxs]
        exact hfresh Option.none (by simp)

/-- C10: in the sorted half-move list, a `Dest` half-move with no `Source`
sharing its `(from_block, to_block, to_vreg)` key prefix contributes nothing:
removing it leaves the scan's result unchanged, and a list of only `Dest`s
produces no moves and no failure. -/
theorem c10_unmatched_dest_skipped (func : Func) :
    (∀ (pre post : List HalfMove) (d : HalfMove),
      d.kind = HalfMoveKind.dest →
      List.Pairwise (fun a b => a.key ≤ b.key) (pre ++ d :: post) →
      (∀ s ∈ pre ++ d :: post, s.kind = HalfMoveKind.source →
        s.key >>> 1 ≠ d.key >>> 1) →
      resolve_half_moves_go func Option.none (pre ++ d :: post) =
        resolve_half_moves_go func Option.none (pre ++ post)) ∧
    (∀ l : List HalfMove, (∀ h ∈ l, h.kind = HalfMoveKind.dest) →
      resolve_half_moves_go func Option.none l = .ok []) := by
  constructor
  · intro pre post d hd hsort hns
    exact go_skip_unmatched_dest func d hd pre post Option.none hsort hns
      (by simp)
  · intro l hl
    induction l with
    | nil => rfl
    | cons x rest ih =>
      simp only [resolve_half_moves_go]
      have hx : ¬ (x.kind = HalfMoveKind.source) := by
        rw [hl x (List.mem_cons_self x rest)]
        intro hc; cases hc
      rw [if_neg hx]
      exact ih (fun h hm => hl h (List.mem_cons_of_mem x hm))

/-- Witness for C10: a lone `Source` with key 0 followed by an unmatched
`Dest` with key 3 gives the same (empty) result as the `Source` alone, and
an all-`Dest` list resolves to no moves. -/
theorem c10_unmatched_dest_skipped_witness :
    resolve_half_moves_go wFunc Option.none
        [⟨0, wr1⟩, ⟨3, wr2⟩] =
      resolve_half_moves_go wFunc Option.none [⟨0, wr1⟩] ∧
    resolve_half_moves_go wFunc Option.none [⟨3, wr2⟩] = .ok [] :=
  ⟨(c10_unmatched_dest_skipped wFunc).1 [⟨0, wr1⟩] [] ⟨3, wr2⟩
      (by decide) (by decide) (by decide),
   (c10_unmatched_dest_skipped wFunc).2 [⟨3, wr2⟩] (by decide)⟩

/-! ### C6: program-move pairing -/

theorem reify_go_spec (vreg_regs : Nat → Nat) :
    ∀ (ss ds : List ((Nat × Nat) × Allocation)) (out : List InsertedMove),
      reify_prog_moves_go vreg_regs ss ds = .ok out →
      ss.length = ds.length ∧ out.length = ss.length ∧
      ∀ i (hi : i < out.length) (hs : i < ss.length) (hd : i < ds.length),
        (ds.get ⟨i, hd⟩).1.2 = (ss.get ⟨i, hs⟩).1.2 + 1 ∧
        (ss.get ⟨i, hs⟩).2 ≠ Allocation.none ∧
        (ds.get ⟨i, hd⟩).2 ≠ Allocation.none ∧
        out.get ⟨i, hi⟩ = ⟨ProgPoint.before (ds.get ⟨i, hd⟩).1.2,
          InsertMovePrio.regular, (ss.get ⟨i, hs⟩).2, (ds.get ⟨i, hd⟩).2,
          some (vreg_regs (ds.get ⟨i, hd⟩).1.1)⟩ := by
  intro ss
  induction ss with
  | nil =>
    intro ds out h
    cases ds with
    | nil =>
      simp only [reify_prog_moves_go, Except.ok.injEq] at h
      subst h
      exact ⟨rfl, rfl, fun i hi => absurd hi (by simp)⟩
    | cons d ds' => simp [reify_prog_moves_go] at h
  | cons s ss' ih =>
    intro ds out h
    cases ds with
    | nil => simp [reify_prog_moves_go] at h
    | cons d ds' =>
      simp only [reify_prog_moves_go] at h
      by_cases h1 : s.2.is_none = true
      · rw [if_pos h1] at h; simp at h
      · rw [if_neg h1] at h
        by_cases h2 : d.2.is_none = true
        · rw [if_pos h2] at h; simp at h
        · rw [if_neg h2] at h
          by_cases h3 : (s.1.2 : Int) = (d.1.2 : Int) - 1
          · rw [if_pos h3] at h
            cases htail : reify_prog_moves_go vreg_regs ss' ds' with
            | error e => rw [htail, except_bind_error] at h; simp at h
            | ok tail =>
              rw [htail, except_bind_ok] at h
              simp only [Except.ok.injEq] at h
              subst h
              rcases ih ds' tail htail with ⟨hlen, hlen2, hspec⟩
              refine ⟨by simp only [List.length_cons]; omega,
                by simp only [List.length_cons]; omega, ?_⟩
              intro i hi hs hd
              cases i with
              | zero =>
                refine ⟨?_, ?_, ?_, ?_⟩
                · show d.1.2 = s.1.2 + 1
                  omega
                · show s.2 ≠ Allocation.none
                  intro hc
                  apply h1
                  rw [hc]
                  rfl
                · show d.2 ≠ Allocation.none
                  intro hc
                  apply h2
                  rw [hc]
                  rfl
                · rfl
              | succ j =>
                exact hspec j (by simpa using hi) (by simpa using hs)
                  (by simpa using hd)
          · rw [if_neg h3] at h; simp at h

/-- C6: when program-move reification succeeds (the source asserts all of
this), the source and destination lists have equal lengths, and after sorting
the sources by instruction and the destinations by predecessor instruction,
the i-th pair satisfies `to_inst = from_inst + 1` with both allocations
non-`None`, and enqueues exactly the `Regular`-priority move
`from_alloc → to_alloc` at `Before(to_inst)`. -/
theorem c6_prog_move_pairing (vreg_regs : Nat → Nat)
    (srcs dsts : List ((Nat × Nat) × Allocation)) (out : List InsertedMove)
    (h : reify_prog_moves vreg_regs srcs dsts = .ok out) :
    srcs.length = dsts.length ∧
    out.length = srcs.length ∧
    ∀ i (hi : i < out.length) (hs : i < (sorted_prog_move_srcs srcs).length)
        (hd : i < (sorted_prog_move_dsts dsts).length),
      ((sorted_prog_move_dsts dsts).get ⟨i, hd⟩).1.2 =
        ((sorted_prog_move_srcs srcs).get ⟨i, hs⟩).1.2 + 1 ∧
      ((sorted_prog_move_srcs srcs).get ⟨i, hs⟩).2 ≠ Allocation.none ∧
      ((sorted_prog_move_dsts dsts).get ⟨i, hd⟩).2 ≠ Allocation.none ∧
      out.get ⟨i, hi⟩ =
        ⟨ProgPoint.before (((sorted_prog_move_dsts dsts).get ⟨i, hd⟩).1.2),
         InsertMovePrio.regular,
         ((sorted_prog_move_srcs srcs).get ⟨i, hs⟩).2,
         ((sorted_prog_move_dsts dsts).get ⟨i, hd⟩).2,
         some (vreg_regs (((sorted_prog_move_dsts dsts).get ⟨i, hd⟩).1.1))⟩ := by
  rcases reify_go_spec vreg_regs _ _ out h with ⟨hlen, hlen2, hspec⟩
  have hs_len : (sorted_prog_move_srcs srcs).length = srcs.length :=
    (stable_sort_by_key_perm _ srcs).length_eq
  have hd_len : (sorted_prog_move_dsts dsts).length = dsts.length :=
    (stable_sort_by_key_perm _ dsts).length_eq
  refine ⟨?_, ?_, hspec⟩
  · rw [← hs_len, ← hd_len]
    exact hlen
  · rw [← hs_len]
    exact hlen2

/-- Witness for C6 on one concrete program move (vreg 9, instructions 4 → 5). -/
theorem c6_prog_move_pairing_witness :
    ([((7, 4), wr1)] : List ((Nat × Nat) × Allocation)).length =
      ([((9, 5), wr2)] : List ((Nat × Nat) × Allocation)).length ∧
    ([⟨ProgPoint.before 5, InsertMovePrio.regular, wr1, wr2, some 9⟩] :
      List InsertedMove).length = 1 ∧
    ∀ i (hi : i < ([⟨ProgPoint.before 5, InsertMovePrio.regular, wr1, wr2,
        some 9⟩] : List InsertedMove).length)
      (hs : i < (sorted_prog_move_srcs [((7, 4), wr1)]).length)
      (hd : i < (sorted_prog_move_dsts [((9, 5), wr2)]).length),
      ((sorted_prog_move_dsts [((9, 5), wr2)]).get ⟨i, hd⟩).1.2 =
        ((sorted_prog_move_srcs [((7, 4), wr1)]).get ⟨i, hs⟩).1.2 + 1 ∧
      ((sorted_prog_move_srcs [((7, 4), wr1)]).get ⟨i, hs⟩).2 ≠
        Allocation.none ∧
      ((sorted_prog_move_dsts [((9, 5), wr2)]).get ⟨i, hd⟩).2 ≠
        Allocation.none ∧
      ([⟨ProgPoint.before 5, InsertMovePrio.regular, wr1, wr2, some 9⟩] :
          List InsertedMove).get ⟨i, hi⟩ =
        ⟨ProgPoint.before
            (((sorted_prog_move_dsts [((9, 5), wr2)]).get ⟨i, hd⟩).1.2),
         InsertMovePrio.regular,
         ((sorted_prog_move_srcs [((7, 4), wr1)]).get ⟨i, hs⟩).2,
         ((sorted_prog_move_dsts [((9, 5), wr2)]).get ⟨i, hd⟩).2,
         some (id (((sorted_prog_move_dsts [((9, 5), wr2)]).get
            ⟨i, hd⟩).1.1))⟩ :=
  c6_prog_move_pairing id [((7, 4), wr1)] [((9, 5), wr2)]
    [⟨ProgPoint.before 5, InsertMovePrio.regular, wr1, wr2, some 9⟩] rfl

/-! ### Inversion helpers for the `Except` monad -/

theorem except_bind_inv {ε α β : Type} (x : Except ε α) (f : α → Except ε β)
    (b : β) (h : (x >>= f) = .ok b) : ∃ a, x = .ok a ∧ f a = .ok b := by
  cases x with
  | error e => rw [except_bind_error] at h; simp at h
  | ok a => rw [except_bind_ok] at h; exact ⟨a, rfl, h⟩

theorem except_ok_inj {ε α : Type} {a b : α}
    (h : (Except.ok a : Except ε α) = .ok b) : a = b := by
  injection h

/-! ### Edit deltas: everything enters the edit stream through `add_edit` -/

theorem add_edit_defAlloc (edits : List EditRec) (pos : ProgPoint)
    (prio : InsertMovePrio) (a : Allocation) (v : Nat) :
    add_edit edits pos prio (.defAlloc a v) =
      .ok (edits ++ [(pos.to_index, prio, .defAlloc a v)]) := rfl

theorem add_edit_delta (edits : List EditRec) (pos : ProgPoint)
    (prio : InsertMovePrio) (edit : Edit) (out : List EditRec)
    (h : add_edit edits pos prio edit = .ok out) :
    ∃ Δ, out = edits ++ Δ ∧ (∀ e ∈ Δ, e.1 = pos.to_index ∧ e.2.1 = prio ∧
      e.2.2 = edit ∧ no_trivial_self_move e) := by
  cases edit with
  | move f t v =>
    simp only [add_edit] at h
    by_cases hft : f = t ∧ v = Option.none
    · rw [if_pos hft] at h
      exact ⟨[], by simp [(except_ok_inj h).symm], by simp⟩
    · rw [if_neg hft] at h
      have hnt : no_trivial_self_move (pos.to_index, prio, Edit.move f t v) := by
        intro f' t' v' heq hfe
        injection heq with e1 e2 e3
        subst e1; subst e2; subst e3
        intro hv
        exact hft ⟨hfe, hv⟩
      have hout : out = edits ++ [(pos.to_index, prio, Edit.move f t v)] := by
        split at h
        · split at h
          · exact (except_ok_inj h).symm
          · simp at h
        · exact (except_ok_inj h).symm
      refine ⟨[(pos.to_index, prio, Edit.move f t v)], hout, ?_⟩
      intro e he
      rcases List.mem_singleton.mp he with rfl
      exact ⟨rfl, rfl, rfl, hnt⟩
  | defAlloc a v =>
    rw [add_edit_defAlloc] at h
    refine ⟨[(pos.to_index, prio, Edit.defAlloc a v)], (except_ok_inj h).symm, ?_⟩
    intro e he
    rcases List.mem_singleton.mp he with rfl
    refine ⟨rfl, rfl, rfl, ?_⟩
    intro f' t' v' heq
    simp at heq

theorem add_edit_keyed (edits : List EditRec) (pos : ProgPoint)
    (prio : InsertMovePrio) (edit : Edit) (out : List EditRec)
    (h : add_edit edits pos prio edit = .ok out) :
    ∃ Δ, out = edits ++ Δ ∧ ∀ e ∈ Δ, keyed_edit pos prio e := by
  rcases add_edit_delta edits pos prio edit out h with ⟨Δ, hΔ, hall⟩
  exact ⟨Δ, hΔ, fun e he => ⟨(hall e he).1, (hall e he).2.1, (hall e he).2.2.2⟩⟩

theorem delta_trans {edits0 edits1 edits2 : List EditRec} {Q : EditRec → Prop}
    {Δ1 Δ2 : List EditRec} (h1 : edits1 = edits0 ++ Δ1)
    (h2 : edits2 = edits1 ++ Δ2) (q1 : ∀ e ∈ Δ1, Q e) (q2 : ∀ e ∈ Δ2, Q e) :
    edits2 = edits0 ++ (Δ1 ++ Δ2) ∧ ∀ e ∈ Δ1 ++ Δ2, Q e := by
  constructor
  · rw [h2, h1, List.append_assoc]
  · intro e he
    rcases List.mem_append.mp he with he | he
    · exact q1 e he
    · exact q2 e he

theorem emit_def_alloc_delta (pos : ProgPoint) (prio : InsertMovePrio)
    (edits : List EditRec) (da : Option (Allocation × Nat))
    (out : List EditRec) (h : emit_def_alloc pos prio edits da = .ok out) :
    ∃ Δ, out = edits ++ Δ ∧ ∀ e ∈ Δ, keyed_edit pos prio e := by
  cases da with
  | none => exact ⟨[], by simp [(except_ok_inj h).symm], by simp⟩
  | some av =>
    simp only [emit_def_alloc] at h
    exact add_edit_keyed _ _ _ _ _ h

theorem emit_resolved_move_delta (scratch : PReg)
    (extra_slot : Option Allocation) (pos : ProgPoint) (prio : InsertMovePrio)
    (st : EmitState) (mv : PMove) (st' : EmitState)
    (h : emit_resolved_move scratch extra_slot pos prio st mv = .ok st') :
    ∃ Δ, st'.edits = st.edits ++ Δ ∧ ∀ e ∈ Δ, keyed_edit pos prio e := by
  unfold emit_resolved_move at h
  by_cases he : (st.redundant_moves.process_move mv.1 mv.2.1 mv.2.2).1.elide
  · rw [if_pos he] at h
    rcases except_bind_inv _ _ _ h with ⟨edits1, hmatch, hpure⟩
    have hst' := except_ok_inj hpure
    rcases emit_def_alloc_delta _ _ _ _ _ hmatch with ⟨Δ, hΔ, hq⟩
    refine ⟨Δ, ?_, hq⟩
    rw [← hst']
    exact hΔ
  · rw [if_neg he] at h
    rcases except_bind_inv _ _ _ h with ⟨edits1, hbr, hrest⟩
    rcases except_bind_inv _ _ _ hrest with ⟨edits2, hmatch, hpure⟩
    have hst' := except_ok_inj hpure
    have hΔ1 : ∃ Δ, edits1 = st.edits ++ Δ ∧ ∀ e ∈ Δ, keyed_edit pos prio e := by
      by_cases hss : mv.1.is_stack = true ∧ mv.2.1.is_stack = true
      · rw [if_pos hss] at hbr
        by_cases hsu : (st.scratch_used_yet ||
            (mv.2.1 == Allocation.reg scratch)) = false
        · rw [if_pos hsu] at hbr
          rcases except_bind_inv _ _ _ hbr with ⟨e1, ha1, ha2⟩
          rcases add_edit_keyed _ _ _ _ _ ha1 with ⟨Δa, hΔa, hqa⟩
          rcases add_edit_keyed _ _ _ _ _ ha2 with ⟨Δb, hΔb, hqb⟩
          exact ⟨Δa ++ Δb, delta_trans hΔa hΔb hqa hqb⟩
        · rw [if_neg hsu] at hbr
          cases hex : extra_slot with
          | none => rw [hex] at hbr; simp at hbr
          | some extra =>
            rw [hex] at hbr
            rcases except_bind_inv _ _ _ hbr with ⟨e1, ha1, hbr1⟩
            rcases except_bind_inv _ _ _ hbr1 with ⟨e2, ha2, hbr2⟩
            rcases except_bind_inv _ _ _ hbr2 with ⟨e3, ha3, ha4⟩
            rcases add_edit_keyed _ _ _ _ _ ha1 with ⟨Δa, hΔa, hqa⟩
            rcases add_edit_keyed _ _ _ _ _ ha2 with ⟨Δb, hΔb, hqb⟩
            rcases add_edit_keyed _ _ _ _ _ ha3 with ⟨Δc, hΔc, hqc⟩
            rcases add_edit_keyed _ _ _ _ _ ha4 with ⟨Δd, hΔd, hqd⟩
            rcases delta_trans hΔa hΔb hqa hqb with ⟨h12, q12⟩
            rcases delta_trans h12 hΔc q12 hqc with ⟨h13, q13⟩
            exact ⟨_, delta_trans h13 hΔd q13 hqd⟩
      · rw [if_neg hss] at hbr
        exact add_edit_keyed _ _ _ _ _ hbr
    rcases hΔ1 with ⟨Δ1, hΔ1, hq1⟩
    rcases emit_def_alloc_delta _ _ _ _ _ hmatch with ⟨Δ2, hΔ2, hq2⟩
    refine ⟨Δ1 ++ Δ2, ?_, (delta_trans hΔ1 hΔ2 hq1 hq2).2⟩
    rw [← hst']
    exact (delta_trans hΔ1 hΔ2 hq1 hq2).1

/-- Generic delta lemma for `foldlM` over `Except`. -/
theorem foldlM_delta {σ α : Type} (proj : σ → List EditRec) (Q : EditRec → Prop)
    (f : σ → α → Except RAErr σ)
    (hf : ∀ s a s', f s a = .ok s' → ∃ Δ, proj s' = proj s ++ Δ ∧ ∀ e ∈ Δ, Q e) :
    ∀ (l : List α) (s s' : σ), l.foldlM f s = .ok s' →
      ∃ Δ, proj s' = proj s ++ Δ ∧ ∀ e ∈ Δ, Q e := by
  intro l
  induction l with
  | nil =>
    intro s s' h
    rw [List.foldlM_nil] at h
    exact ⟨[], by simp [except_ok_inj h], by simp⟩
  | cons a l ih =>
    intro s s' h
    rw [List.foldlM_cons] at h
    rcases except_bind_inv _ _ _ h with ⟨s2, hfa, hrest⟩
    rcases hf s a s2 hfa with ⟨Δ1, h1, q1⟩
    rcases ih s2 s' hrest with ⟨Δ2, h2, q2⟩
    exact ⟨Δ1 ++ Δ2, delta_trans h1 h2 q1 q2⟩

theorem process_class_moves_delta (func : Func) (pos : ProgPoint)
    (prio : InsertMovePrio) (regclass : RegClass) (st : RState)
    (moves : List InsertedMove) (st' : RState)
    (h : process_class_moves func pos prio regclass st moves = .ok st') :
    ∃ Δ, st'.edits = st.edits ++ Δ ∧ ∀ e ∈ Δ, keyed_edit pos prio e := by
  unfold process_class_moves at h
  rcases except_bind_inv _ _ _ h with ⟨final, hfold, hpure⟩
  have hst' := except_ok_inj hpure
  rcases foldlM_delta EmitState.edits (keyed_edit pos prio) _
      (fun s a s' hs => emit_resolved_move_delta _ _ _ _ s a s' hs) _ _ _ hfold
    with ⟨Δ, hΔ, hq⟩
  refine ⟨Δ, ?_, hq⟩
  rw [← hst']
  exact hΔ

theorem emit_self_moves_delta (pos : ProgPoint) (prio : InsertMovePrio) :
    ∀ (selfs : List InsertedMove) (rm : RedundantMoveEliminator)
      (edits : List EditRec) (out : RedundantMoveEliminator × List EditRec),
      emit_self_moves pos prio rm edits selfs = .ok out →
      ∃ Δ, out.2 = edits ++ Δ ∧ ∀ e ∈ Δ, keyed_edit pos prio e := by
  intro selfs
  induction selfs with
  | nil =>
    intro rm edits out h
    exact ⟨[], by simp [(except_ok_inj h).symm], by simp⟩
  | cons m rest ih =>
    intro rm edits out h
    unfold emit_self_moves at h
    by_cases he : (rm.process_move m.from_alloc m.to_alloc m.to_vreg).1.elide
    · rw [if_pos he] at h
      rcases except_bind_inv _ _ _ h with ⟨edits1, hmatch, hrec⟩
      rcases emit_def_alloc_delta _ _ _ _ _ hmatch with ⟨Δ1, h1, q1⟩
      rcases ih _ _ _ hrec with ⟨Δ2, h2, q2⟩
      exact ⟨Δ1 ++ Δ2, delta_trans h1 h2 q1 q2⟩
    · rw [if_neg he] at h
      simp at h

theorem process_group_delta (func : Func) (st : RState)
    (group : List InsertedMove) (pos : ProgPoint) (prio : InsertMovePrio)
    (st' : RState) (h : process_group func st group pos prio = .ok st') :
    ∃ Δ, st'.edits = st.edits ++ Δ ∧ ∀ e ∈ Δ, keyed_edit pos prio e := by
  unfold process_group at h
  rcases except_bind_inv _ _ _ h with ⟨parts, hparts, h1⟩
  rcases except_bind_inv _ _ _ h1 with ⟨st2, hint, h2⟩
  rcases except_bind_inv _ _ _ h2 with ⟨st3, hfloat, h3⟩
  rcases except_bind_inv _ _ _ h3 with ⟨selfRes, hself, hpure⟩
  have hst' := except_ok_inj hpure
  rcases process_class_moves_delta _ _ _ _ _ _ _ hint with ⟨Δ1, hΔ1, hq1⟩
  rcases process_class_moves_delta _ _ _ _ _ _ _ hfloat with ⟨Δ2, hΔ2, hq2⟩
  rcases emit_self_moves_delta _ _ _ _ _ _ hself with ⟨Δ3, hΔ3, hq3⟩
  rcases delta_trans hΔ1 hΔ2 hq1 hq2 with ⟨h12, q12⟩
  rcases delta_trans h12 hΔ3 q12 hq3 with ⟨h13, q13⟩
  refine ⟨_, ?_, q13⟩
  rw [← hst']
  exact h13

/-- Edits produced by the group loop: each is keyed by the head move of one of
the processed groups, and never a trivial self-move. -/
theorem resolve_groups_delta (func : Func) :
    ∀ (gs : List (List InsertedMove)) (st st' : RState),
      resolve_groups func st gs = .ok st' →
      ∃ Δ, st'.edits = st.edits ++ Δ ∧ ∀ e ∈ Δ, no_trivial_self_move e ∧
        ∃ g, g ∈ gs ∧ ∃ m, g.head? = some m ∧ e.1 = m.pos.to_index ∧
          e.2.1 = m.prio := by
  intro gs
  induction gs with
  | nil =>
    intro st st' h
    exact ⟨[], by simp [(except_ok_inj h).symm], by simp⟩
  | cons g gs ih =>
    intro st st' h
    unfold resolve_groups at h
    cases g with
    | nil =>
      rcases ih st st' h with ⟨Δ, hΔ, hq⟩
      refine ⟨Δ, hΔ, fun e he => ⟨(hq e he).1, ?_⟩⟩
      rcases (hq e he).2 with ⟨g', hg', rest⟩
      exact ⟨g', List.mem_cons_of_mem _ hg', rest⟩
    | cons m gtail =>
      rcases except_bind_inv _ _ _ h with ⟨stm, hg, hrest⟩
      rcases process_group_delta _ _ _ _ _ _ hg with ⟨Δ1, h1, q1⟩
      rcases ih stm st' hrest with ⟨Δ2, h2, q2⟩
      refine ⟨Δ1 ++ Δ2, by rw [h2, h1, List.append_assoc], ?_⟩
      intro e he
      rcases List.mem_append.mp he with he | he
      · exact ⟨(q1 e he).2.2, ⟨m :: gtail, List.mem_cons_self _ _, m, rfl,
          (q1 e he).1, (q1 e he).2.1⟩⟩
      · refine ⟨(q2 e he).1, ?_⟩
        rcases (q2 e he).2 with ⟨g', hg', rest⟩
        exact ⟨g', List.mem_cons_of_mem _ hg', rest⟩

theorem blockparam_group_edits_delta (func : Func) (edits : List EditRec)
    (block : Nat) (params : List BlockparamAlloc) (out : List EditRec)
    (h : blockparam_group_edits func edits block params = .ok out) :
    ∃ Δ, out = edits ++ Δ ∧ ∀ e ∈ Δ, ∃ a v, e.2.2 = Edit.defAlloc a v := by
  unfold blockparam_group_edits at h
  split at h
  · refine foldlM_delta id (fun e => ∃ a v, e.2.2 = Edit.defAlloc a v) _
      ?_ params edits out h
    intro s a s' hs
    rw [add_edit_defAlloc] at hs
    refine ⟨[((func.block_entry block).to_index, InsertMovePrio.blockParam,
      Edit.defAlloc a.2.2.2 (func.vreg_regs a.2.2.1))], (except_ok_inj hs).symm, ?_⟩
    intro e he
    rcases List.mem_singleton.mp he with rfl
    exact ⟨_, _, rfl⟩
  · simp at h

theorem blockparam_edits_delta (func : Func) (edits : List EditRec)
    (bps : List BlockparamAlloc) (out : List EditRec)
    (h : blockparam_edits func edits bps = .ok out) :
    ∃ Δ, out = edits ++ Δ ∧ ∀ e ∈ Δ, ∃ a v, e.2.2 = Edit.defAlloc a v := by
  unfold blockparam_edits at h
  exact foldlM_delta id _ _
    (fun s a s' hs => blockparam_group_edits_delta func s a.1 a.2 s' hs) _ _ _ h

/-! ### C7: the final stable sort of the edits -/

/-- C7: `resolve_inserted_moves` ends by stable-sorting the emitted edits by
`(pos, prio)`: the result is exactly the stable sort of the pre-sort edit
list, it is sorted by the key, and within every equal key the edits appear in
exactly the order they were emitted (filtering by any key commutes with the
sort). -/
theorem c7_final_sort_stable (func : Func) (bps : List BlockparamAlloc)
    (ims : List InsertedMove) (pre : List EditRec)
    (h : resolve_pre func bps ims = .ok pre) :
    resolve_inserted_moves func bps ims =
      .ok (stable_sort_by_key edit_key pre) ∧
    (stable_sort_by_key edit_key pre).Pairwise
      (fun a b => edit_key a ≤ edit_key b) ∧
    ∀ p : EditRec → Bool, (∀ a b, p a = true → p b = true →
        edit_key a = edit_key b) →
      (stable_sort_by_key edit_key pre).filter p = pre.filter p := by
  refine ⟨?_, stable_sort_by_key_pairwise _ _,
    fun p hp => stable_sort_by_key_filter _ p hp pre⟩
  unfold resolve_inserted_moves
  rw [h]
  rfl

/-- Witness for C7 on a one-move pipeline. -/
theorem c7_final_sort_stable_witness :
    resolve_inserted_moves wFunc []
        [⟨ProgPoint.before 1, .regular, wr1, wr2, some 0⟩] =
      .ok (stable_sort_by_key edit_key
        [(2, .regular, .move wr1 wr2 (some 0))]) ∧
    (stable_sort_by_key edit_key
      [(2, .regular, .move wr1 wr2 (some 0))]).Pairwise
        (fun a b => edit_key a ≤ edit_key b) ∧
    ∀ p : EditRec → Bool, (∀ a b, p a = true → p b = true →
        edit_key a = edit_key b) →
      (stable_sort_by_key edit_key
        [((2 : Nat), InsertMovePrio.regular,
          Edit.move wr1 wr2 (some 0))]).filter p =
      [((2 : Nat), InsertMovePrio.regular,
        Edit.move wr1 wr2 (some 0))].filter p :=
  c7_final_sort_stable wFunc []
    [⟨ProgPoint.before 1, .regular, wr1, wr2, some 0⟩]
    [(2, .regular, .move wr1 wr2 (some 0))] rfl

/-! ### C8: no trivial self-moves in the final output -/

/-- C8: `add_edit` records nothing for a `Move` whose endpoints coincide and
which carries no `to_vreg`, and consequently every edit in the final output of
`resolve_inserted_moves` satisfies: a `Move` with `from == to` carries a
`to_vreg`. -/
theorem c8_no_trivial_self_moves :
    (∀ (edits : List EditRec) (pos : ProgPoint) (prio : InsertMovePrio)
      (a : Allocation), add_edit edits pos prio (.move a a Option.none) =
        .ok edits) ∧
    (∀ (func : Func) (bps : List BlockparamAlloc) (ims : List InsertedMove)
      (es : List EditRec), resolve_inserted_moves func bps ims = .ok es →
      ∀ e ∈ es, no_trivial_self_move e) := by
  constructor
  · intro edits pos prio a
    simp [add_edit]
  · intro func bps ims es h
    unfold resolve_inserted_moves at h
    cases hpre : resolve_pre func bps ims with
    | error e => rw [hpre] at h; simp at h
    | ok pre =>
      rw [hpre] at h
      have hes : es = stable_sort_by_key edit_key pre := (except_ok_inj h).symm
      have hpre_prop : ∀ e ∈ pre, no_trivial_self_move e := by
        unfold resolve_pre at hpre
        rcases except_bind_inv _ _ _ hpre with ⟨st, hgroups, hbp⟩
        rcases resolve_groups_delta func _ _ _ hgroups with ⟨Δ1, h1, q1⟩
        rcases blockparam_edits_delta _ _ _ _ hbp with ⟨Δ2, h2, q2⟩
        intro e he
        rw [h2, h1] at he
        simp only [init_rstate, List.nil_append] at he
        rcases List.mem_append.mp he with he | he
        · exact (q1 e he).1
        · rcases q2 e he with ⟨a, v, hda⟩
          intro f t v' heq
          rw [hda] at heq
          simp at heq
      intro e he
      rw [hes] at he
      exact hpre_prop e ((stable_sort_by_key_perm edit_key pre).mem_iff.mp he)

/-- Witness for C8: the self-move `wr1 → wr1` without `to_vreg` records
nothing, and the concrete pipeline output `wC1Edits` satisfies the
invariant. -/
theorem c8_no_trivial_self_moves_witness :
    add_edit [] (ProgPoint.before 0) .regular (.move wr1 wr1 Option.none) =
      .ok [] ∧
    ∀ e ∈ wC1Edits, no_trivial_self_move e :=
  ⟨(c8_no_trivial_self_moves).1 [] (ProgPoint.before 0) .regular wr1,
   (c8_no_trivial_self_moves).2 wFunc [] wC1Moves wC1Edits rfl⟩

/-! ### C3: stack-to-stack lowering and the extra spill slot -/

theorem add_edit_push_move (es : List EditRec) (pos : ProgPoint)
    (prio : InsertMovePrio) (f t : Allocation) (v : Option Nat)
    (hne : ¬ (f = t ∧ v = Option.none))
    (hcls : ∀ fr tr, f = Allocation.reg fr → t = Allocation.reg tr →
      fr.cls = tr.cls) :
    add_edit es pos prio (.move f t v) =
      .ok (es ++ [(pos.to_index, prio, .move f t v)]) := by
  simp only [add_edit]
  rw [if_neg hne]
  split
  · next fr tr => rw [if_pos (hcls fr tr rfl rfl)]
  · rfl

theorem process_move_def_alloc_none (st : RedundantMoveEliminator)
    (src dst : Allocation) (v : Option Nat)
    (h : (st.process_move src dst v).1.elide = false) :
    (st.process_move src dst v).1.def_alloc = Option.none := by
  simp only [RedundantMoveEliminator.process_move] at h ⊢
  rw [if_neg (by rw [h]; simp)]

theorem process_class_moves_extra_persist (func : Func) (pos : ProgPoint)
    (prio : InsertMovePrio) (regclass : RegClass) (st : RState)
    (moves : List InsertedMove) (st' : RState) (c : RegClass) (a : Allocation)
    (h : process_class_moves func pos prio regclass st moves = .ok st')
    (ha : st.extra_spillslot c = some a) : st'.extra_spillslot c = some a := by
  unfold process_class_moves at h
  rcases except_bind_inv _ _ _ h with ⟨final, _, hpure⟩
  have hst' := except_ok_inj hpure
  rw [← hst']
  by_cases hcond : (((parallel_moves_resolve
      (Allocation.reg (func.scratch_by_class regclass))
      ((moves.filter (fun m => (m.from_alloc != m.to_alloc) ||
        m.to_vreg.isSome)).map
          (fun m => (m.from_alloc, m.to_alloc, m.to_vreg)))).any (fun r =>
      r.1 == Allocation.reg (func.scratch_by_class regclass) ||
      r.2.1 == Allocation.reg (func.scratch_by_class regclass)) &&
    (parallel_moves_resolve (Allocation.reg (func.scratch_by_class regclass))
      ((moves.filter (fun m => (m.from_alloc != m.to_alloc) ||
        m.to_vreg.isSome)).map
          (fun m => (m.from_alloc, m.to_alloc, m.to_vreg)))).any (fun r =>
      r.1.is_stack && r.2.1.is_stack)) = true)
  · simp only [hcond, if_true]
    cases hex : st.extra_spillslot regclass with
    | some a0 => simpa using ha
    | none =>
      simp only
      by_cases hc : c = regclass
      · rw [hc] at ha
        rw [ha] at hex
        cases hex
      · simp only [if_neg hc]
        exact ha
  · simp only [hcond]
    simpa using ha

theorem process_group_extra_persist (func : Func) (st : RState)
    (group : List InsertedMove) (pos : ProgPoint) (prio : InsertMovePrio)
    (st' : RState) (c : RegClass) (a : Allocation)
    (h : process_group func st group pos prio = .ok st')
    (ha : st.extra_spillslot c = some a) : st'.extra_spillslot c = some a := by
  unfold process_group at h
  rcases except_bind_inv _ _ _ h with ⟨parts, _, h1⟩
  rcases except_bind_inv _ _ _ h1 with ⟨st2, hint, h2⟩
  rcases except_bind_inv _ _ _ h2 with ⟨st3, hfloat, h3⟩
  rcases except_bind_inv _ _ _ h3 with ⟨selfRes, _, hpure⟩
  have hst' := except_ok_inj hpure
  have hextra : st'.extra_spillslot = st3.extra_spillslot := by
    rw [← hst']
  rw [hextra]
  exact process_class_moves_extra_persist _ _ _ _ _ _ _ _ _ hfloat
    (process_class_moves_extra_persist _ _ _ _ _ _ _ _ _ hint ha)

theorem resolve_groups_extra_persist (func : Func) :
    ∀ (gs : List (List InsertedMove)) (st st' : RState) (c : RegClass)
      (a : Allocation), resolve_groups func st gs = .ok st' →
      st.extra_spillslot c = some a → st'.extra_spillslot c = some a := by
  intro gs
  induction gs with
  | nil =>
    intro st st' c a h ha
    rw [← except_ok_inj h]
    exact ha
  | cons g gs ih =>
    intro st st' c a h ha
    unfold resolve_groups at h
    cases g with
    | nil => exact ih st st' c a h ha
    | cons m gtail =>
      rcases except_bind_inv _ _ _ h with ⟨stm, hg, hrest⟩
      exact ih stm st' c a hrest
        (process_group_extra_persist _ _ _ _ _ _ _ _ hg ha)

/-- C3: a resolved stack-to-stack move that the eliminator does not elide is
lowered to exactly the two edits `src → scratch; scratch → dst` when the
scratch has not yet been a destination in the group, and to exactly the four
edits `scratch → extra; src → scratch; scratch → dst; extra → scratch`
through the extra spill slot when it has (the extra slot then must be
present — the source asserts it); and an extra spill slot, once allocated for
a class, is kept unchanged by every later class pass and group, hence is
allocated at most once per class and reused. -/
theorem c3_stack_stack_lowering :
    (∀ (scratch : PReg) (extra_slot : Option Allocation) (pos : ProgPoint)
        (prio : InsertMovePrio) (st : EmitState) (mv : PMove)
        (st' : EmitState),
      emit_resolved_move scratch extra_slot pos prio st mv = .ok st' →
      mv.1.is_stack = true → mv.2.1.is_stack = true →
      (st.redundant_moves.process_move mv.1 mv.2.1 mv.2.2).1.elide = false →
      (st.scratch_used_yet = false →
        st'.edits = st.edits ++
          [(pos.to_index, prio, .move mv.1 (Allocation.reg scratch) mv.2.2),
           (pos.to_index, prio,
             .move (Allocation.reg scratch) mv.2.1 mv.2.2)]) ∧
      (st.scratch_used_yet = true → extra_slot ≠ Option.none) ∧
      (∀ extra, st.scratch_used_yet = true → extra_slot = some extra →
        extra.is_stack = true →
        st'.edits = st.edits ++
          [(pos.to_index, prio,
             .move (Allocation.reg scratch) extra Option.none),
           (pos.to_index, prio, .move mv.1 (Allocation.reg scratch) mv.2.2),
           (pos.to_index, prio, .move (Allocation.reg scratch) mv.2.1 mv.2.2),
           (pos.to_index, prio,
             .move extra (Allocation.reg scratch) Option.none)])) ∧
    (∀ (func : Func) (pos : ProgPoint) (prio : InsertMovePrio)
        (regclass : RegClass) (st : RState) (moves : List InsertedMove)
        (st' : RState) (c : RegClass) (a : Allocation),
      process_class_moves func pos prio regclass st moves = .ok st' →
      st.extra_spillslot c = some a → st'.extra_spillslot c = some a) ∧
    (∀ (func : Func) (gs : List (List InsertedMove)) (st st' : RState)
        (c : RegClass) (a : Allocation),
      resolve_groups func st gs = .ok st' →
      st.extra_spillslot c = some a → st'.extra_spillslot c = some a) := by
  refine ⟨?_, fun func pos prio rc st mv st' c a h ha =>
      process_class_moves_extra_persist func pos prio rc st mv st' c a h ha,
    fun func gs st st' c a h ha =>
      resolve_groups_extra_persist func gs st st' c a h ha⟩
  intro scratch extra_slot pos prio st mv st' h hs1 hs2 helide
  have hsrc : mv.1 ≠ Allocation.reg scratch := by
    intro he
    rw [he] at hs1
    simp [Allocation.is_stack] at hs1
  have hdst : mv.2.1 ≠ Allocation.reg scratch := by
    intro he
    rw [he] at hs2
    simp [Allocation.is_stack] at hs2
  have hbeq : (mv.2.1 == Allocation.reg scratch) = false :=
    beq_eq_false_iff_ne.mpr hdst
  unfold emit_resolved_move at h
  rw [if_neg (by rw [helide]; simp)] at h
  rw [if_pos ⟨hs1, hs2⟩] at h
  rw [hbeq] at h
  simp only [Bool.or_false] at h
  have hda := process_move_def_alloc_none st.redundant_moves mv.1 mv.2.1
    mv.2.2 helide
  by_cases hsu : st.scratch_used_yet = false
  · rw [if_pos hsu] at h
    rw [add_edit_push_move st.edits pos prio mv.1 (Allocation.reg scratch)
      mv.2.2 (by intro hc; exact hsrc hc.1)
      (by intro fr tr hf ht; rw [hf] at hs1; simp [Allocation.is_stack] at hs1)]
      at h
    rw [except_bind_ok] at h
    rw [add_edit_push_move _ pos prio (Allocation.reg scratch) mv.2.1
      mv.2.2 (by intro hc; exact hdst hc.1.symm)
      (by intro fr tr hf ht; rw [ht] at hs2; simp [Allocation.is_stack] at hs2)]
      at h
    rw [except_bind_ok, hda] at h
    simp only [emit_def_alloc] at h
    rw [except_pure_bind] at h
    have hst' := except_ok_inj h
    refine ⟨fun _ => ?_, fun htrue => absurd htrue (by rw [hsu]; simp),
      fun extra htrue _ _ => absurd htrue (by rw [hsu]; simp)⟩
    rw [← hst']
    simp [List.append_assoc]
  · have hsu' : st.scratch_used_yet = true := by
      cases hv : st.scratch_used_yet
      · exact absurd hv hsu
      · rfl
    rw [if_neg (by rw [hsu']; simp)] at h
    cases hex : extra_slot with
    | none =>
      rw [hex] at h
      simp [except_bind_error] at h
    | some extra =>
      rw [hex] at h
      dsimp only [] at h
      refine ⟨fun hfalse => absurd hfalse (by rw [hsu']; simp),
        fun _ => by simp [hex], ?_⟩
      intro extra' _ hex' hstk
      have hee : extra = extra' := by
        injection hex'
      subst hee
      have hextra_ne : extra ≠ Allocation.reg scratch := by
        intro he
        rw [he] at hstk
        simp [Allocation.is_stack] at hstk
      rw [add_edit_push_move st.edits pos prio (Allocation.reg scratch) extra
        Option.none (by intro hc; exact hextra_ne hc.1.symm)
        (by intro fr tr hf ht; rw [ht] at hstk
            simp [Allocation.is_stack] at hstk)] at h
      rw [except_bind_ok] at h
      rw [add_edit_push_move _ pos prio mv.1 (Allocation.reg scratch)
        mv.2.2 (by intro hc; exact hsrc hc.1)
        (by intro fr tr hf ht; rw [hf] at hs1
            simp [Allocation.is_stack] at hs1)] at h
      rw [except_bind_ok] at h
      rw [add_edit_push_move _ pos prio (Allocation.reg scratch) mv.2.1
        mv.2.2 (by intro hc; exact hdst hc.1.symm)
        (by intro fr tr hf ht; rw [ht] at hs2
            simp [Allocation.is_stack] at hs2)] at h
      rw [except_bind_ok] at h
      rw [add_edit_push_move _ pos prio extra (Allocation.reg scratch)
        Option.none (by intro hc; exact hextra_ne hc.1)
        (by intro fr tr hf ht; rw [hf] at hstk
            simp [Allocation.is_stack] at hstk)] at h
      rw [except_bind_ok, hda] at h
      simp only [emit_def_alloc] at h
      rw [except_pure_bind] at h
      have hst' := except_ok_inj h
      rw [← hst']
      simp [List.append_assoc]

/-- Witness for C3: the concrete stack-to-stack move `ws0 → ws1` with a fresh
scratch lowers to exactly the two edits through the scratch register. -/
theorem c3_stack_stack_lowering_witness :
    ∃ st' : EmitState,
      emit_resolved_move ⟨0, RegClass.int⟩ Option.none (ProgPoint.before 1)
        .regular ⟨.empty, false, []⟩ (ws0, ws1, some 1) = .ok st' ∧
      st'.edits = ([] : List EditRec) ++
        [((ProgPoint.before 1).to_index, .regular,
          .move ws0 (Allocation.reg ⟨0, RegClass.int⟩) (some 1)),
         ((ProgPoint.before 1).to_index, .regular,
          .move (Allocation.reg ⟨0, RegClass.int⟩) ws1 (some 1))] :=
  ⟨_, rfl, (c3_stack_stack_lowering.1 ⟨0, RegClass.int⟩ Option.none
    (ProgPoint.before 1) .regular ⟨.empty, false, []⟩ (ws0, ws1, some 1) _
    rfl rfl rfl rfl).1 rfl⟩


/-! ### C1: helper lemmas about the singleton-group pipeline -/

theorem except_map_inv {ε α β : Type} (f : α → β) (x : Except ε α) (b : β)
    (h : (f <$> x) = .ok b) : ∃ a, x = .ok a ∧ f a = b := by
  cases x with
  | error e => cases h
  | ok a => exact ⟨a, rfl, except_ok_inj h⟩

theorem resolve_pre_eq (func : Func) (bps : List BlockparamAlloc)
    (ims : List InsertedMove) :
    resolve_pre func bps ims =
      (resolve_groups func init_rstate (split_groups (stable_sort_by_key
        (fun m : InsertedMove => toLex (m.pos.to_index, m.prio.rank)) ims)) >>=
        fun st => blockparam_edits func st.edits bps) := rfl

theorem parallel_moves_resolve_singleton (s : Allocation) (pm : PMove) :
    parallel_moves_resolve s [pm] = [pm] := rfl

theorem process_class_moves_nil (func : Func) (pos : ProgPoint)
    (prio : InsertMovePrio) (rc : RegClass) (st : RState) :
    process_class_moves func pos prio rc st [] = .ok st := rfl

theorem add_edit_ok_push (es : List EditRec) (pos : ProgPoint)
    (prio : InsertMovePrio) (f t : Allocation) (v : Option Nat)
    (out : List EditRec) (h : add_edit es pos prio (.move f t v) = .ok out)
    (hft : f ≠ t) : out = es ++ [(pos.to_index, prio, .move f t v)] := by
  simp only [add_edit] at h
  rw [if_neg (fun hc => hft hc.1)] at h
  split at h
  · split at h
    · exact (except_ok_inj h).symm
    · simp at h
  · exact (except_ok_inj h).symm

theorem process_move_elide_false_ne (st : RedundantMoveEliminator)
    (src dst : Allocation) (v : Option Nat)
    (h : (st.process_move src dst v).1.elide = false) : src ≠ dst := by
  intro hEq
  subst hEq
  simp [RedundantMoveEliminator.process_move] at h

theorem emit_def_alloc_shape (pos : ProgPoint) (prio : InsertMovePrio)
    (edits : List EditRec) (da : Option (Allocation × Nat))
    (out : List EditRec) (h : emit_def_alloc pos prio edits da = .ok out) :
    out = edits ∨
      ∃ a v, out = edits ++ [(pos.to_index, prio, Edit.defAlloc a v)] := by
  cases da with
  | none => exact Or.inl (except_ok_inj h).symm
  | some av =>
    simp only [emit_def_alloc] at h
    rw [add_edit_defAlloc] at h
    exact Or.inr ⟨av.1, av.2, (except_ok_inj h).symm⟩

theorem edit_move_ne_defAlloc (f t : Allocation) (v : Option Nat)
    (a : Allocation) (w : Nat) : Edit.move f t v ≠ Edit.defAlloc a w :=
  fun h => Edit.noConfusion h

theorem emit_resolved_move_singleton (scratch : PReg)
    (extra_slot : Option Allocation) (pos : ProgPoint) (prio : InsertMovePrio)
    (st : EmitState) (mv : PMove) (st' : EmitState)
    (h : emit_resolved_move scratch extra_slot pos prio st mv = .ok st')
    (hnss : ¬ (mv.1.is_stack = true ∧ mv.2.1.is_stack = true)) :
    ((st.redundant_moves.process_move mv.1 mv.2.1 mv.2.2).1.elide = false →
      st'.edits = st.edits ++
        [(pos.to_index, prio, Edit.move mv.1 mv.2.1 mv.2.2)]) ∧
    ((st.redundant_moves.process_move mv.1 mv.2.1 mv.2.2).1.elide = true →
      ∀ e ∈ st'.edits, e ∈ st.edits ∨ ∃ a v, e.2.2 = Edit.defAlloc a v) := by
  unfold emit_resolved_move at h
  by_cases he : (st.redundant_moves.process_move mv.1 mv.2.1 mv.2.2).1.elide
  · rw [if_pos he] at h
    rcases except_bind_inv _ _ _ h with ⟨edits1, hda, hpure⟩
    have hst' := except_ok_inj hpure
    have hedits : st'.edits = edits1 := by rw [← hst']
    constructor
    · intro hfalse
      rw [hfalse] at he
      cases he
    · intro _ e heIn
      rw [hedits] at heIn
      rcases emit_def_alloc_shape _ _ _ _ _ hda with hsame | ⟨a, v, hout⟩
      · rw [hsame] at heIn
        exact Or.inl heIn
      · rw [hout] at heIn
        rcases List.mem_append.mp heIn with hin | hin
        · exact Or.inl hin
        · rcases List.mem_singleton.mp hin with rfl
          exact Or.inr ⟨a, v, rfl⟩
  · rw [if_neg he] at h
    rcases except_bind_inv _ _ _ h with ⟨e1, hbr, h2⟩
    rcases except_bind_inv _ _ _ h2 with ⟨e2, hda, hpure⟩
    have hst' := except_ok_inj hpure
    have hedits : st'.edits = e2 := by rw [← hst']
    have he0 : (st.redundant_moves.process_move mv.1 mv.2.1 mv.2.2).1.elide
        = false := by
      cases hx : (st.redundant_moves.process_move mv.1 mv.2.1 mv.2.2).1.elide
      · rfl
      · exact absurd hx he
    have hne : mv.1 ≠ mv.2.1 := process_move_elide_false_ne _ _ _ _ he0
    rw [if_neg hnss] at hbr
    have hb1 : e1 = st.edits ++
        [(pos.to_index, prio, Edit.move mv.1 mv.2.1 mv.2.2)] :=
      add_edit_ok_push _ _ _ _ _ _ _ hbr hne
    rw [process_move_def_alloc_none _ _ _ _ he0] at hda
    have hb2 : e2 = e1 := (except_ok_inj hda).symm
    constructor
    · intro _
      rw [hedits, hb2, hb1]
    · intro htrue
      exact absurd htrue he

theorem process_class_moves_singleton (func : Func) (pos : ProgPoint)
    (prio : InsertMovePrio) (rc : RegClass) (st : RState) (m : InsertedMove)
    (st' : RState)
    (h : process_class_moves func pos prio rc st [m] = .ok st')
    (hne : m.from_alloc ≠ m.to_alloc)
    (hnss : ¬ (m.from_alloc.is_stack = true ∧ m.to_alloc.is_stack = true)) :
    ((st.redundant_moves.process_move m.from_alloc m.to_alloc
        m.to_vreg).1.elide = false →
      st'.edits = st.edits ++
        [(pos.to_index, prio, Edit.move m.from_alloc m.to_alloc m.to_vreg)]) ∧
    ((st.redundant_moves.process_move m.from_alloc m.to_alloc
        m.to_vreg).1.elide = true →
      ∀ e ∈ st'.edits, e ∈ st.edits ∨ ∃ a v, e.2.2 = Edit.defAlloc a v) := by
  have hfil : List.filter (fun x : InsertedMove =>
      (x.from_alloc != x.to_alloc) || x.to_vreg.isSome) [m] = [m] := by
    simp [hne]
  unfold process_class_moves at h
  rcases except_bind_inv _ _ _ h with ⟨final, hfold, hpure⟩
  have hst' := except_ok_inj hpure
  have hedits : st'.edits = final.edits := by rw [← hst']
  rw [hfil, List.map_cons,
    List.map_nil, parallel_moves_resolve_singleton, List.foldlM_cons] at hfold
  rcases except_bind_inv _ _ _ hfold with ⟨st1e, hemit, hrest⟩
  have hfin : st1e = final := except_ok_inj hrest
  rcases emit_resolved_move_singleton _ _ _ _ _ _ _ hemit hnss with ⟨hf, ht⟩
  constructor
  · intro h0
    rw [hedits, ← hfin]
    exact hf h0
  · intro h1 e he
    rw [hedits, ← hfin] at he
    exact Or.imp_left (fun hx => hx) (ht h1 e he)

theorem partition_moves_singleton (m : InsertedMove)
    (parts : List InsertedMove × List InsertedMove × List InsertedMove)
    (h : partition_moves [m] = .ok parts) (hne : m.from_alloc ≠ m.to_alloc) :
    (m.from_alloc.cls = some RegClass.int ∧ parts = ([m], [], [])) ∨
    (m.from_alloc.cls = some RegClass.float ∧ parts = ([], [m], [])) := by
  unfold partition_moves at h
  rcases except_bind_inv _ _ _ h with ⟨u, _, h2⟩
  rcases except_bind_inv _ _ _ h2 with ⟨parts0, hp0, h3⟩
  have hp0e : (([], [], []) :
      List InsertedMove × List InsertedMove × List InsertedMove) = parts0 :=
    except_ok_inj hp0
  subst hp0e
  rw [if_neg hne] at h3
  cases hcls : m.from_alloc.cls with
  | none =>
    rw [hcls] at h3
    cases h3
  | some c =>
    cases c with
    | int =>
      rw [hcls] at h3
      exact Or.inl ⟨rfl, (except_ok_inj h3).symm⟩
    | float =>
      rw [hcls] at h3
      exact Or.inr ⟨rfl, (except_ok_inj h3).symm⟩

theorem partition_moves_singleton_self (m : InsertedMove)
    (parts : List InsertedMove × List InsertedMove × List InsertedMove)
    (h : partition_moves [m] = .ok parts) (heq : m.from_alloc = m.to_alloc) :
    parts = ([], [], [m]) ∨ parts = ([], [], []) := by
  unfold partition_moves at h
  rcases except_bind_inv _ _ _ h with ⟨u, _, h2⟩
  rcases except_bind_inv _ _ _ h2 with ⟨parts0, hp0, h3⟩
  have hp0e : (([], [], []) :
      List InsertedMove × List InsertedMove × List InsertedMove) = parts0 :=
    except_ok_inj hp0
  subst hp0e
  rw [if_pos heq] at h3
  by_cases hv : m.to_vreg.isSome
  · rw [if_pos hv] at h3
    exact Or.inl (except_ok_inj h3).symm
  · rw [if_neg hv] at h3
    exact Or.inr (except_ok_inj h3).symm

theorem emit_self_moves_defAlloc (pos : ProgPoint) (prio : InsertMovePrio) :
    ∀ (sms : List InsertedMove) (rm : RedundantMoveEliminator)
      (edits : List EditRec) (out : RedundantMoveEliminator × List EditRec),
      emit_self_moves pos prio rm edits sms = .ok out →
      ∀ e ∈ out.2, e ∈ edits ∨ ∃ a v, e.2.2 = Edit.defAlloc a v := by
  intro sms
  induction sms with
  | nil =>
    intro rm edits out h e he
    have hout : out = (rm, edits) := (except_ok_inj h).symm
    rw [hout] at he
    exact Or.inl he
  | cons m rest ih =>
    intro rm edits out h e he
    unfold emit_self_moves at h
    by_cases hel : (rm.process_move m.from_alloc m.to_alloc m.to_vreg).1.elide
    · rw [if_pos hel] at h
      rcases except_bind_inv _ _ _ h with ⟨edits1, hda, hrest⟩
      rcases emit_def_alloc_shape _ _ _ _ _ hda with hsame | ⟨a, v, hout⟩
      · rcases ih _ _ _ hrest e he with hin | hsh
        · rw [hsame] at hin
          exact Or.inl hin
        · exact Or.inr hsh
      · rcases ih _ _ _ hrest e he with hin | hsh
        · rw [hout] at hin
          rcases List.mem_append.mp hin with hin2 | hin2
          · exact Or.inl hin2
          · rcases List.mem_singleton.mp hin2 with rfl
            exact Or.inr ⟨a, v, rfl⟩
        · exact Or.inr hsh
    · rw [if_neg hel] at h
      cases h

theorem process_group_singleton_move (func : Func) (st : RState)
    (m : InsertedMove) (st' : RState)
    (h : process_group func st [m] m.pos m.prio = .ok st')
    (hne : m.from_alloc ≠ m.to_alloc)
    (hnss : ¬ (m.from_alloc.is_stack = true ∧ m.to_alloc.is_stack = true)) :
    (((redundant_move_process_side_effects func st.redundant_moves st.last_pos
          m.pos).process_move m.from_alloc m.to_alloc m.to_vreg).1.elide
        = false →
      st'.edits = st.edits ++
        [(m.pos.to_index, m.prio,
          Edit.move m.from_alloc m.to_alloc m.to_vreg)]) ∧
    (((redundant_move_process_side_effects func st.redundant_moves st.last_pos
          m.pos).process_move m.from_alloc m.to_alloc m.to_vreg).1.elide
        = true →
      ∀ e ∈ st'.edits, e ∈ st.edits ∨ ∃ a v, e.2.2 = Edit.defAlloc a v) := by
  unfold process_group at h
  rcases except_bind_inv _ _ _ h with ⟨parts, hparts, h1⟩
  rcases except_bind_inv _ _ _ h1 with ⟨st2, hint, h2⟩
  rcases except_bind_inv _ _ _ h2 with ⟨st3, hfloat, h3⟩
  rcases except_bind_inv _ _ _ h3 with ⟨selfRes, hself, hpure⟩
  have hst' := except_ok_inj hpure
  have hedits : st'.edits = selfRes.2 := by rw [← hst']
  rcases partition_moves_singleton m parts hparts hne with ⟨hcls, hp⟩ | ⟨hcls, hp⟩
  · subst hp
    rw [process_class_moves_nil] at hfloat
    have h23 : st2 = st3 := except_ok_inj hfloat
    subst h23
    have hsr := except_ok_inj hself
    have hed2 : st'.edits = st2.edits := by rw [hedits, ← hsr]
    rcases process_class_moves_singleton func m.pos m.prio RegClass.int _ m st2
      hint hne hnss with ⟨hf, ht⟩
    constructor
    · intro h0
      rw [hed2]
      exact hf h0
    · intro h1 e he
      rw [hed2] at he
      exact Or.imp_left (fun hx => hx) (ht h1 e he)
  · subst hp
    rw [process_class_moves_nil] at hint
    have h12 := except_ok_inj hint
    subst h12
    have hsr := except_ok_inj hself
    have hed2 : st'.edits = st3.edits := by rw [hedits, ← hsr]
    rcases process_class_moves_singleton func m.pos m.prio RegClass.float _ m st3
      hfloat hne hnss with ⟨hf, ht⟩
    constructor
    · intro h0
      rw [hed2]
      exact hf h0
    · intro h1 e he
      rw [hed2] at he
      exact Or.imp_left (fun hx => hx) (ht h1 e he)

theorem process_group_singleton_self (func : Func) (st : RState)
    (m : InsertedMove) (st' : RState)
    (h : process_group func st [m] m.pos m.prio = .ok st')
    (heq : m.from_alloc = m.to_alloc) :
    ∀ e ∈ st'.edits, e ∈ st.edits ∨ ∃ a v, e.2.2 = Edit.defAlloc a v := by
  unfold process_group at h
  rcases except_bind_inv _ _ _ h with ⟨parts, hparts, h1⟩
  rcases except_bind_inv _ _ _ h1 with ⟨st2, hint, h2⟩
  rcases except_bind_inv _ _ _ h2 with ⟨st3, hfloat, h3⟩
  rcases except_bind_inv _ _ _ h3 with ⟨selfRes, hself, hpure⟩
  have hst' := except_ok_inj hpure
  have hedits : st'.edits = selfRes.2 := by rw [← hst']
  rcases partition_moves_singleton_self m parts hparts heq with hp | hp
  · subst hp
    rw [process_class_moves_nil] at hint
    have h12 := except_ok_inj hint
    subst h12
    rw [process_class_moves_nil] at hfloat
    have h23 := except_ok_inj hfloat
    subst h23
    intro e he
    rw [hedits] at he
    exact Or.imp_left (fun hx => hx)
      (emit_self_moves_defAlloc m.pos m.prio [m] _ _ selfRes hself e he)
  · subst hp
    rw [process_class_moves_nil] at hint
    have h12 := except_ok_inj hint
    subst h12
    rw [process_class_moves_nil] at hfloat
    have h23 := except_ok_inj hfloat
    subst h23
    have hsr := except_ok_inj hself
    intro e he
    rw [hedits, ← hsr] at he
    exact Or.inl he

theorem split_groups_go_strict :
    ∀ (ms : List InsertedMove) (cur : List InsertedMove) (curPos : ProgPoint)
      (curPrio : InsertMovePrio),
      (∀ m ∈ ms, curPos.to_index < m.pos.to_index) →
      ms.Pairwise (fun a b => a.pos.to_index < b.pos.to_index) →
      split_groups_go cur curPos curPrio ms =
        cur.reverse :: ms.map (fun m => [m]) := by
  intro ms
  induction ms with
  | nil =>
    intro cur curPos curPrio _ _
    rfl
  | cons m rest ih =>
    intro cur curPos curPrio hlt hpw
    have hne : ¬ (m.pos = curPos ∧ m.prio = curPrio) := by
      rintro ⟨hp, _⟩
      have hlt2 := hlt m (List.mem_cons_self m rest)
      rw [hp] at hlt2
      exact lt_irrefl _ hlt2
    rcases List.pairwise_cons.mp hpw with ⟨hm, hrest⟩
    show (if m.pos = curPos ∧ m.prio = curPrio then
        split_groups_go (m :: cur) curPos curPrio rest
      else cur.reverse :: split_groups_go [m] m.pos m.prio rest) = _
    rw [if_neg hne, ih [m] m.pos m.prio hm hrest]
    rfl

theorem split_groups_strict (ms : List InsertedMove)
    (h : ms.Pairwise (fun a b => a.pos.to_index < b.pos.to_index)) :
    split_groups ms = ms.map (fun m => [m]) := by
  cases ms with
  | nil => rfl
  | cons m rest =>
    rcases List.pairwise_cons.mp h with ⟨hm, hrest⟩
    show split_groups_go [m] m.pos m.prio rest = _
    rw [split_groups_go_strict rest [m] m.pos m.prio hm hrest]
    rfl

theorem resolve_groups_append_inv (func : Func) :
    ∀ (gs1 gs2 : List (List InsertedMove)) (st st' : RState),
      resolve_groups func st (gs1 ++ gs2) = .ok st' →
      ∃ stm, resolve_groups func st gs1 = .ok stm ∧
        resolve_groups func stm gs2 = .ok st' := by
  intro gs1
  induction gs1 with
  | nil =>
    intro gs2 st st' h
    exact ⟨st, rfl, h⟩
  | cons g gs1 ih =>
    intro gs2 st st' h
    cases g with
    | nil =>
      have h' : resolve_groups func st (gs1 ++ gs2) = .ok st' := h
      rcases ih gs2 st st' h' with ⟨stm, h1, h2⟩
      exact ⟨stm, h1, h2⟩
    | cons m gt =>
      have h' : (process_group func st (m :: gt) m.pos m.prio >>= fun st2 =>
          resolve_groups func st2 (gs1 ++ gs2)) = .ok st' := h
      rcases except_bind_inv _ _ _ h' with ⟨st2, hg, hrest⟩
      rcases ih gs2 st2 st' hrest with ⟨stm, h1, h2⟩
      refine ⟨stm, ?_, h2⟩
      show (process_group func st (m :: gt) m.pos m.prio >>= fun st2 =>
        resolve_groups func st2 gs1) = .ok stm
      rw [hg, except_bind_ok]
      exact h1

theorem takeWhile_strict_pre (q : Nat) :
    ∀ (pre : List InsertedMove) (m : InsertedMove) (post : List InsertedMove),
      (∀ a ∈ pre, a.pos.to_index < q) → m.pos.to_index = q →
      (pre ++ m :: post).takeWhile (fun x => x.pos.to_index < q) = pre := by
  intro pre
  induction pre with
  | nil =>
    intro m post _ hm
    rw [List.nil_append, List.takeWhile_cons, if_neg]
    simp [hm]
  | cons a pre ih =>
    intro m post hlt hm
    rw [List.cons_append, List.takeWhile_cons, if_pos]
    · rw [ih m post (fun x hx => hlt x (List.mem_cons_of_mem _ hx)) hm]
    · simp only [decide_eq_true_eq]
      exact hlt a (List.mem_cons_self _ _)

theorem abutment_moves_aux_mem (func : Func) (vr : Nat) :
    ∀ (rs1 : List RangeEntry) (prev : Option RangeEntry) (p cur : RangeEntry)
      (rs2 : List RangeEntry) (ms : List InsertedMove),
      abutment_moves_aux func vr prev (rs1 ++ p :: cur :: rs2) = .ok ms →
      p.to_ = cur.from_ → is_start_of_block func cur.from_ = false →
      cur.startsAtDef = false →
      cur.from_.pos = InstPosition.before ∧
      (⟨cur.from_, .regular, p.alloc, cur.alloc,
        some (func.vreg_regs vr)⟩ : InsertedMove) ∈ ms := by
  intro rs1
  induction rs1 with
  | nil =>
    intro prev p cur rs2 ms h habut hblk hdef
    rw [List.nil_append] at h
    have h' : (abutment_one func vr prev p >>= fun here =>
        abutment_moves_aux func vr (some p) (cur :: rs2) >>= fun tail =>
        .ok (here ++ tail)) = .ok ms := h
    rcases except_bind_inv _ _ _ h' with ⟨here, _, h2⟩
    rcases except_bind_inv _ _ _ h2 with ⟨tail1, haux, hpure⟩
    have hms : here ++ tail1 = ms := except_ok_inj hpure
    have haux' : (abutment_one func vr (some p) cur >>= fun here2 =>
        abutment_moves_aux func vr (some cur) rs2 >>= fun tail2 =>
        .ok (here2 ++ tail2)) = .ok tail1 := haux
    rcases except_bind_inv _ _ _ haux' with ⟨here2, hone, h3⟩
    rcases except_bind_inv _ _ _ h3 with ⟨tail2, _, hpure2⟩
    have htl : here2 ++ tail2 = tail1 := except_ok_inj hpure2
    have hone' : (if p.to_ = cur.from_ ∧
        is_start_of_block func cur.from_ = false ∧ cur.startsAtDef = false then
        (if cur.from_.pos = InstPosition.before then
          insert_move [] cur.from_ .regular p.alloc cur.alloc
            (some (func.vreg_regs vr))
        else .error .assertFail)
      else .ok []) = .ok here2 := hone
    rw [if_pos ⟨habut, hblk, hdef⟩] at hone'
    by_cases hpos : cur.from_.pos = InstPosition.before
    · rw [if_pos hpos] at hone'
      have h2eq : here2 = [] ++ [⟨cur.from_, .regular, p.alloc, cur.alloc,
          some (func.vreg_regs vr)⟩] := insert_move_ok _ _ _ _ _ _ _ hone'
      refine ⟨hpos, ?_⟩
      rw [← hms, ← htl, h2eq]
      simp
    · rw [if_neg hpos] at hone'
      cases hone'
  | cons x rs1 ih =>
    intro prev p cur rs2 ms h habut hblk hdef
    rw [List.cons_append] at h
    have h' : (abutment_one func vr prev x >>= fun here =>
        abutment_moves_aux func vr (some x) (rs1 ++ p :: cur :: rs2) >>=
          fun tail => .ok (here ++ tail)) = .ok ms := h
    rcases except_bind_inv _ _ _ h' with ⟨here, _, h2⟩
    rcases except_bind_inv _ _ _ h2 with ⟨tail1, haux, hpure⟩
    have hms : here ++ tail1 = ms := except_ok_inj hpure
    rcases ih (some x) p cur rs2 tail1 haux habut hblk hdef with ⟨h1, h2m⟩
    refine ⟨h1, ?_⟩
    rw [← hms]
    exact List.mem_append_right _ h2m

/-- The heart of the amended abutment claim: in a strictly
position-increasing move list every move forms its own group; at the
designated move's position the final edits hold only what its group emitted
(plus blockparam `DefAlloc`s, which are never `Move`s).  A self-move group
leaves at most `DefAlloc`s; a non-self, non-stack-to-stack move's `Move`
edit is present iff the redundant-move eliminator did not elide it. -/
theorem resolve_singleton_groups_mem (func : Func) (bps : List BlockparamAlloc)
    (pre post : List InsertedMove) (X : InsertedMove) (es : List EditRec)
    (hstrict : (pre ++ X :: post).Pairwise
      (fun a b => a.pos.to_index < b.pos.to_index))
    (hres : resolve_inserted_moves func bps (pre ++ X :: post) = .ok es) :
    (X.from_alloc = X.to_alloc →
      ∀ e ∈ es, e.1 = X.pos.to_index → ∃ a v, e.2.2 = Edit.defAlloc a v) ∧
    (X.from_alloc ≠ X.to_alloc →
      ¬ (X.from_alloc.is_stack = true ∧ X.to_alloc.is_stack = true) →
      (((X.pos.to_index, X.prio,
          Edit.move X.from_alloc X.to_alloc X.to_vreg) : EditRec) ∈ es ↔
        elides_at func (pre ++ X :: post) X = false)) := by
  unfold resolve_inserted_moves at hres
  rcases except_map_inv _ _ _ hres with ⟨P, hpre_res, hsort_es⟩
  rw [resolve_pre_eq] at hpre_res
  have hkey_sorted : (pre ++ X :: post).Pairwise (fun a b =>
      (fun m : InsertedMove => toLex (m.pos.to_index, m.prio.rank)) a ≤
      (fun m : InsertedMove => toLex (m.pos.to_index, m.prio.rank)) b) := by
    refine List.Pairwise.imp ?_ hstrict
    intro a b hab
    exact (Prod.Lex.le_iff (a.pos.to_index, a.prio.rank)
      (b.pos.to_index, b.prio.rank)).mpr (Or.inl hab)
  rw [stable_sort_by_key_of_sorted _ _ hkey_sorted] at hpre_res
  rw [split_groups_strict _ hstrict] at hpre_res
  rw [List.map_append, List.map_cons] at hpre_res
  rcases except_bind_inv _ _ _ hpre_res with ⟨stF, hgroups, hbp⟩
  rcases resolve_groups_append_inv func (List.map (fun m => [m]) pre)
      ((fun m => [m]) X :: List.map (fun m => [m]) post) init_rstate stF
      hgroups with ⟨stm, hpre_run, hrest⟩
  have hrest' : (process_group func stm [X] X.pos X.prio >>= fun st2 =>
      resolve_groups func st2 (List.map (fun m => [m]) post)) = .ok stF := hrest
  rcases except_bind_inv _ _ _ hrest' with ⟨stT, hT, hpost_run⟩
  rcases List.pairwise_append.mp hstrict with ⟨hpre, hmid, hcross⟩
  rcases List.pairwise_cons.mp hmid with ⟨hpost_gt, _⟩
  have hpre_lt : ∀ a ∈ pre, a.pos.to_index < X.pos.to_index :=
    fun a ha => hcross a ha X (List.mem_cons_self _ _)
  rcases resolve_groups_delta func _ _ _ hpre_run with ⟨dpre, hdpre, hqpre⟩
  have hinit : init_rstate.edits = ([] : List EditRec) := rfl
  rw [hinit, List.nil_append] at hdpre
  rcases resolve_groups_delta func _ _ _ hpost_run with ⟨dpost, hdpost, hqpost⟩
  rcases blockparam_edits_delta func _ _ _ hbp with ⟨dbp, hdbp, hqbp⟩
  have keypre : ∀ e ∈ dpre, e.1 ≠ X.pos.to_index := by
    intro e he hk
    rcases (hqpre e he).2 with ⟨g, hg, m', hhead, hk1, _⟩
    rcases List.mem_map.mp hg with ⟨m2, hm2, hgeq⟩
    rw [← hgeq] at hhead
    have hm2e : m2 = m' := by
      have hsome : some m2 = some m' := hhead
      injection hsome
    have hlt := hpre_lt m2 hm2
    rw [hm2e, ← hk1, hk] at hlt
    exact lt_irrefl _ hlt
  have keypost : ∀ e ∈ dpost, e.1 ≠ X.pos.to_index := by
    intro e he hk
    rcases (hqpost e he).2 with ⟨g, hg, m', hhead, hk1, _⟩
    rcases List.mem_map.mp hg with ⟨m2, hm2, hgeq⟩
    rw [← hgeq] at hhead
    have hm2e : m2 = m' := by
      have hsome : some m2 = some m' := hhead
      injection hsome
    have hlt := hpost_gt m2 hm2
    rw [hm2e, ← hk1, hk] at hlt
    exact lt_irrefl _ hlt
  have hmemP : ∀ y : EditRec, y ∈ es ↔ y ∈ P := by
    intro y
    rw [← hsort_es]
    exact (stable_sort_by_key_perm edit_key P).mem_iff
  have hPsplit : ∀ y : EditRec, y ∈ P ↔
      (y ∈ stT.edits ∨ y ∈ dpost ∨ y ∈ dbp) := by
    intro y
    rw [hdbp, hdpost]
    simp only [List.mem_append, or_assoc]
  constructor
  · intro heq e he hkey
    rcases (hPsplit e).mp ((hmemP e).mp he) with hTin | hDp | hDb
    · rcases process_group_singleton_self func stm X stT hT heq e hTin
        with hin | hsh
      · rw [hdpre] at hin
        exact absurd hkey (keypre e hin)
      · exact hsh
    · exact absurd hkey (keypost e hDp)
    · exact hqbp e hDb
  · intro hne hnss
    have htake : (pre ++ X :: post).takeWhile
        (fun x => x.pos.to_index < X.pos.to_index) = pre :=
      takeWhile_strict_pre X.pos.to_index pre X post hpre_lt rfl
    have hstb : resolve_state_before func (pre ++ X :: post) X.pos
        = .ok stm := by
      unfold resolve_state_before
      rw [htake, split_groups_strict pre hpre]
      exact hpre_run
    have heli : elides_at func (pre ++ X :: post) X =
        ((redundant_move_process_side_effects func stm.redundant_moves
          stm.last_pos X.pos).process_move X.from_alloc X.to_alloc
            X.to_vreg).1.elide := by
      unfold elides_at
      rw [hstb]
    rcases process_group_singleton_move func stm X stT hT hne hnss
      with ⟨hf, ht⟩
    rw [heli]
    cases hE : ((redundant_move_process_side_effects func stm.redundant_moves
        stm.last_pos X.pos).process_move X.from_alloc X.to_alloc
          X.to_vreg).1.elide with
    | false =>
      constructor
      · intro _
        rfl
      · intro _
        refine (hmemP _).mpr ((hPsplit _).mpr (Or.inl ?_))
        rw [hf hE]
        exact List.mem_append_right _ (List.mem_singleton.mpr rfl)
    | true =>
      constructor
      · intro hXin
        exfalso
        rcases (hPsplit _).mp ((hmemP _).mp hXin) with hTin | hDp | hDb
        · rcases ht hE _ hTin with hin | ⟨a, v, hsh⟩
          · rw [hdpre] at hin
            exact (keypre _ hin) rfl
          · exact edit_move_ne_defAlloc _ _ _ _ _ hsh
        · exact (keypost _ hDp) rfl
        · rcases hqbp _ hDb with ⟨a, v, hsh⟩
          exact edit_move_ne_defAlloc _ _ _ _ _ hsh
      · intro hc
        simp at hc

/-- C1 (amended): for every adjacent pair `(p, cur)` of abutting ranges of a
non-pinned vreg — `p.to == cur.from`, the point not a block start, `cur` not
`StartsAtDef` — the point is a `Before` position and Phase A enqueues the
`Regular`-priority move `alloc(p) → alloc(cur)` at `cur.from`
unconditionally, equal allocations included.  In the final edits (the
enqueued moves assumed at pairwise distinct positions, as abutting ranges
of one vreg are): when the allocations are equal, every edit at that
position is a `DefAlloc` — no `Move` exists there; when they differ and the
pair is not stack-to-stack, the `Move` edit appears iff the redundant-move
eliminator does not elide it (`elides_at` is `false`) — not unconditionally,
correcting the original "iff the allocations differ". -/
theorem c1_abutment_move_emission (func : Func) (vr : Nat)
    (rs1 rs2 : List RangeEntry) (p cur : RangeEntry)
    (bps : List BlockparamAlloc) (ms : List InsertedMove) (es : List EditRec)
    (hms : abutment_moves func Option.none vr (rs1 ++ p :: cur :: rs2)
      = .ok ms)
    (hstrict : ms.Pairwise (fun a b => a.pos.to_index < b.pos.to_index))
    (hres : resolve_inserted_moves func bps ms = .ok es)
    (habut : p.to_ = cur.from_)
    (hblk : is_start_of_block func cur.from_ = false)
    (hdef : cur.startsAtDef = false) :
    cur.from_.pos = InstPosition.before ∧
    (⟨cur.from_, .regular, p.alloc, cur.alloc, some (func.vreg_regs vr)⟩ :
      InsertedMove) ∈ ms ∧
    (p.alloc = cur.alloc →
      ∀ e ∈ es, e.1 = cur.from_.to_index →
        ∃ a v, e.2.2 = Edit.defAlloc a v) ∧
    (p.alloc ≠ cur.alloc →
      ¬ (p.alloc.is_stack = true ∧ cur.alloc.is_stack = true) →
      (((cur.from_.to_index, InsertMovePrio.regular,
          Edit.move p.alloc cur.alloc (some (func.vreg_regs vr))) : EditRec)
        ∈ es ↔
        elides_at func ms ⟨cur.from_, .regular, p.alloc, cur.alloc,
          some (func.vreg_regs vr)⟩ = false)) := by
  rcases abutment_moves_aux_mem func vr rs1 Option.none p cur rs2 ms hms
    habut hblk hdef with ⟨hpos, hmem⟩
  rcases List.append_of_mem hmem with ⟨pre, post, hsplit⟩
  subst hsplit
  have hsub := resolve_singleton_groups_mem func bps pre post
    ⟨cur.from_, .regular, p.alloc, cur.alloc, some (func.vreg_regs vr)⟩ es
    hstrict hres
  exact ⟨hpos, hmem, hsub.1, hsub.2⟩

/-- Witness for the amended C1 on the first abutting pair of `wC1Ranges`:
there the eliminator knows nothing yet, so the `Move` edit is present and
`elides_at` is `false`. -/
theorem c1_abutment_move_emission_witness :
    (ProgPoint.before 1).pos = InstPosition.before ∧
    (⟨ProgPoint.before 1, .regular, wr1, wr2, some 0⟩ : InsertedMove)
      ∈ wC1Moves ∧
    (wr1 = wr2 → ∀ e ∈ wC1Edits, e.1 = (ProgPoint.before 1).to_index →
      ∃ a v, e.2.2 = Edit.defAlloc a v) ∧
    (wr1 ≠ wr2 → ¬ (wr1.is_stack = true ∧ wr2.is_stack = true) →
      ((((ProgPoint.before 1).to_index, InsertMovePrio.regular,
        Edit.move wr1 wr2 (some 0)) : EditRec) ∈ wC1Edits ↔
        elides_at wFunc wC1Moves
          ⟨ProgPoint.before 1, .regular, wr1, wr2, some 0⟩ = false)) :=
  c1_abutment_move_emission wFunc 0 []
    [⟨ProgPoint.before 2, ProgPoint.before 3, wr1, false⟩,
     ⟨ProgPoint.before 3, ProgPoint.before 4, wr2, false⟩]
    ⟨ProgPoint.before 0, ProgPoint.before 1, wr1, false⟩
    ⟨ProgPoint.before 1, ProgPoint.before 2, wr2, false⟩
    [] wC1Moves wC1Edits rfl (by decide) rfl rfl rfl rfl

/-- C1, counterexample to the original claim: in `wC1Ranges` the third and
fourth ranges abut at `Before 3` with differing allocations `wr1 ≠ wr2`, the
point is no block start and the range is not `StartsAtDef`; Phase A does
enqueue the move, yet the final edits `wC1Edits` of the very pipeline hold
no `Move` at that position — by then both registers are known to hold
vreg 0, the redundant-move eliminator elides the move and only a `DefAlloc`
remains, refuting "a Move edit appears iff the allocations differ". -/
theorem c1_counterexample :
    wC1Ranges =
      [⟨ProgPoint.before 0, ProgPoint.before 1, wr1, false⟩,
       ⟨ProgPoint.before 1, ProgPoint.before 2, wr2, false⟩] ++
      (⟨ProgPoint.before 2, ProgPoint.before 3, wr1, false⟩ : RangeEntry) ::
      [⟨ProgPoint.before 3, ProgPoint.before 4, wr2, false⟩] ∧
    abutment_moves wFunc Option.none 0 wC1Ranges = .ok wC1Moves ∧
    run_abutment_pipeline wFunc Option.none 0 wC1Ranges [] = .ok wC1Edits ∧
    (⟨ProgPoint.before 2, ProgPoint.before 3, wr1, false⟩ :
      RangeEntry).to_ =
      (⟨ProgPoint.before 3, ProgPoint.before 4, wr2, false⟩ :
        RangeEntry).from_ ∧
    is_start_of_block wFunc (ProgPoint.before 3) = false ∧
    wr1 ≠ wr2 ∧
    elides_at wFunc wC1Moves
      ⟨ProgPoint.before 3, .regular, wr1, wr2, some 0⟩ = true ∧
    ∀ e ∈ wC1Edits, e.1 = (ProgPoint.before 3).to_index →
      e.2.2.isMove = false :=
  ⟨rfl, rfl, rfl, rfl, rfl, by decide, rfl, by decide⟩

end RegAlloc
